import Mathlib

/-!
# Santari: the dependency-update workflow of `src/tasks/santari.js`

A shallow embedding of the class `Santari` and of the JavaScript built-ins and
imported packages its methods call, followed by theorems about its methods.

* JavaScript strings are Lean strings (sequences of Unicode scalar values).
* `JSON` is the data a manifest is made of; `JSON.parse` and `JSON.stringify`
  follow ECMA-404 and the ECMAScript serialisation algorithm.
* `semver.inc` follows the `inc` of the imported `semver` package.
* A method of the class is a function from the instance, its arguments and the
  answer of the collaborator it calls to a `Step`: the way the promise ends,
  the instance afterwards and the calls made, in order.
-/

namespace JS

/-! ## Strings and numbers -/

/-- The method `String.prototype.includes`, on character lists: whether `t` occurs in `s`. -/
def includesChars : List Char → List Char → Bool
  | [], t => t.isEmpty
  | c :: cs, t => t.isPrefixOf (c :: cs) || includesChars cs t

/-- The call `s.includes(t)`. -/
def includes (s t : String) : Bool :=
  includesChars s.data t.data

/-- The decimal digit `d` (below ten) as a character. -/
def digitChar (d : Nat) : Char :=
  Char.ofNat (48 + d)

/-- The value of a decimal digit character. -/
def digitVal (c : Char) : Nat :=
  c.toNat - 48

/-- Whether `c` is one of `0` .. `9`. -/
def isDigit (c : Char) : Bool :=
  decide (48 ≤ c.toNat) && decide (c.toNat ≤ 57)

/-- The decimal digits of `n`, least significant first; `fuel` bounds their number. -/
def digitsRev : Nat → Nat → List Nat
  | 0, _ => []
  | fuel + 1, n => if n < 10 then [n] else (n % 10) :: digitsRev fuel (n / 10)

/-- The decimal numeral of a natural number, as `Number.prototype.toString` prints
a non-negative integer below `10^21`. -/
def natToChars (n : Nat) : List Char :=
  ((digitsRev (n + 1) n).reverse).map digitChar

/-- The number a list of decimal digit characters denotes (most significant first). -/
def charsToNat (cs : List Char) : Nat :=
  cs.foldl (fun acc c => acc * 10 + digitVal c) 0

/-- The decimal numeral of an integer. -/
def intToChars (i : Int) : List Char :=
  if i < 0 then '-' :: natToChars i.natAbs else natToChars i.natAbs

/-- The longest run of decimal digits a character list starts with, and what follows it. -/
def takeDigits : List Char → List Char × List Char
  | [] => ([], [])
  | c :: cs =>
    if isDigit c then ((takeDigits cs).1.cons c, (takeDigits cs).2) else ([], c :: cs)

/-- Left padding of a digit list with zeros up to `width` characters. -/
def padZeros (width : Nat) (cs : List Char) : List Char :=
  List.replicate (width - cs.length) '0' ++ cs

/-- Removal of the factors of ten a mantissa shares with its scale, so that a number has
one representation: `mant / 10 ^ scale` with `scale = 0` or `mant` not divisible by ten. -/
def normalizeDecimal : Nat → Nat → Nat × Nat
  | mant, 0 => (mant, 0)
  | mant, scale + 1 =>
    if mant % 10 = 0 then normalizeDecimal (mant / 10) scale else (mant, scale + 1)

end JS

/-! ## JSON data -/

/-- A JSON value. A number `num mant scale` is the decimal `mant / 10 ^ scale`, kept
exactly (the rounding of a literal to binary64 is not modelled); an object is the list of
its members in property order. -/
inductive JSON where
  | null
  | bool (b : Bool)
  | num (mant : Int) (scale : Nat)
  | str (s : String)
  | arr (xs : List JSON)
  | obj (kvs : List (String × JSON))

namespace JSON

instance : Inhabited JSON := ⟨JSON.null⟩

/-- The property read `o[key]` on the members of an object (`none` is `undefined`). -/
def lookup (key : String) : List (String × JSON) → Option JSON
  | [] => none
  | (k, v) :: kvs => if k = key then some v else lookup key kvs

/-- The property write `o[key] = v` on the members of an object: an existing property
keeps its place, a new one goes last. -/
def setKey (key : String) (v : JSON) : List (String × JSON) → List (String × JSON)
  | [] => [(key, v)]
  | (k, w) :: kvs => if k = key then (k, v) :: kvs else (k, w) :: setKey key v kvs

/-- The property read `value[key]` on any JSON value; only an object has named members. -/
def get (value : JSON) (key : String) : Option JSON :=
  match value with
  | .obj kvs => lookup key kvs
  | _ => none

/-! ### JSON.stringify -/

/-- Four lower-case hexadecimal digits of a number below `65536`. -/
def hex4 (n : Nat) : List Char :=
  [Nat.digitChar (n / 4096 % 16), Nat.digitChar (n / 256 % 16),
   Nat.digitChar (n / 16 % 16), Nat.digitChar (n % 16)]

/-- The escape of one character inside a JSON string (`QuoteJSONString`). -/
def escapeChar (c : Char) : List Char :=
  if c = '"' then ['\\', '"']
  else if c = '\\' then ['\\', '\\']
  else if c.toNat = 8 then ['\\', 'b']
  else if c.toNat = 12 then ['\\', 'f']
  else if c.toNat = 10 then ['\\', 'n']
  else if c.toNat = 13 then ['\\', 'r']
  else if c.toNat = 9 then ['\\', 't']
  else if c.toNat < 32 then '\\' :: 'u' :: hex4 c.toNat
  else [c]

/-- The escaped characters of a string, without the surrounding quotes. -/
def escapeChars : List Char → List Char
  | [] => []
  | c :: cs => escapeChar c ++ escapeChars cs

/-- The algorithm `QuoteJSONString`: a string as a JSON string literal. -/
def quote (s : String) : List Char :=
  '"' :: (escapeChars s.data ++ ['"'])

/-- The text of a number. An integer is printed as JavaScript prints a safe integer; a
number with a fractional part is printed as its plain decimal expansion (JavaScript prints
the shortest decimal that reads back as the same binary64, which is not modelled). -/
def numberToChars (mant : Int) (scale : Nat) : List Char :=
  if scale = 0 then JS.intToChars mant
  else
    (if mant < 0 then ['-'] else []) ++ JS.natToChars (mant.natAbs / 10 ^ scale) ++
      '.' :: JS.padZeros scale (JS.natToChars (mant.natAbs % 10 ^ scale))

mutual
/-- The algorithm `SerializeJSONProperty` for a value, at the indentation `indent`, with
the unit of indentation `gap`. -/
def stringifyValue (gap indent : List Char) : JSON → List Char
  | .null => ['n', 'u', 'l', 'l']
  | .bool b => if b then ['t', 'r', 'u', 'e'] else ['f', 'a', 'l', 's', 'e']
  | .num mant scale => numberToChars mant scale
  | .str s => quote s
  | .arr xs =>
    if xs.isEmpty then ['[', ']']
    else if gap.isEmpty then
      '[' :: (stringifyElements gap (indent ++ gap) xs ++ [']'])
    else
      '[' :: '\n' :: ((indent ++ gap) ++ (stringifyElements gap (indent ++ gap) xs ++
        '\n' :: (indent ++ [']'])))
  | .obj kvs =>
    if kvs.isEmpty then ['{', '}']
    else if gap.isEmpty then
      '{' :: (stringifyMembers gap (indent ++ gap) kvs ++ ['}'])
    else
      '{' :: '\n' :: ((indent ++ gap) ++ (stringifyMembers gap (indent ++ gap) kvs ++
        '\n' :: (indent ++ ['}'])))
/-- The elements of an array, joined by the separator. -/
def stringifyElements (gap indent : List Char) : List JSON → List Char
  | [] => []
  | x :: xs =>
    stringifyValue gap indent x ++
      (if xs.isEmpty then []
       else ',' :: ((if gap.isEmpty then [] else '\n' :: indent) ++
        stringifyElements gap indent xs))
/-- The members of an object, joined by the separator. -/
def stringifyMembers (gap indent : List Char) : List (String × JSON) → List Char
  | [] => []
  | (k, v) :: kvs =>
    quote k ++ (':' :: ((if gap.isEmpty then [] else [' ']) ++ (stringifyValue gap indent v ++
      (if kvs.isEmpty then []
       else ',' :: ((if gap.isEmpty then [] else '\n' :: indent) ++
        stringifyMembers gap indent kvs)))))
end

/-- The call `JSON.stringify(value, null, space)` for a number `space`: the gap is
`min space 10` spaces. -/
def stringify (value : JSON) (space : Nat) : String :=
  String.mk (stringifyValue (List.replicate (min space 10) ' ') [] value)

/-! ### JSON.parse -/

/-- JSON whitespace: space, tab, line feed, carriage return. -/
def isWhitespace (c : Char) : Bool :=
  decide (c = ' ') || decide (c = '\t') || decide (c = '\n') || decide (c = '\r')

/-- The input after its leading whitespace. -/
def skipWs : List Char → List Char
  | [] => []
  | c :: cs => if isWhitespace c then skipWs cs else c :: cs

/-- The value of a hexadecimal digit, in either case. -/
def hexVal (c : Char) : Option Nat :=
  if JS.isDigit c then some (c.toNat - 48)
  else if 97 ≤ c.toNat ∧ c.toNat ≤ 102 then some (c.toNat - 87)
  else if 65 ≤ c.toNat ∧ c.toNat ≤ 70 then some (c.toNat - 55)
  else none

/-- The code unit written by the four hexadecimal digits of a `\u` escape. -/
def hex4Val (a b c d : Char) : Option Nat :=
  match hexVal a, hexVal b, hexVal c, hexVal d with
  | some x, some y, some z, some w => some (x * 4096 + y * 256 + z * 16 + w)
  | _, _, _, _ => none

/-- Whether a code unit is a high surrogate. -/
def isHighSurrogate (n : Nat) : Bool :=
  decide (55296 ≤ n) && decide (n ≤ 56319)

/-- Whether a code unit is a low surrogate. -/
def isLowSurrogate (n : Nat) : Bool :=
  decide (56320 ≤ n) && decide (n ≤ 57343)

/-- The character of a code unit that stands alone; a surrogate without its partner has
no character and is read as U+FFFD. -/
def unitChar (n : Nat) : Char :=
  if isHighSurrogate n || isLowSurrogate n then Char.ofNat 65533 else Char.ofNat n

/-- The character a surrogate pair encodes. -/
def pairChar (hi lo : Nat) : Char :=
  Char.ofNat (65536 + (hi - 55296) * 1024 + (lo - 56320))

/-- The code units of a string literal after its opening quote, up to the closing quote,
and the input after it: a character written as itself gives its code point, an escape
gives the code unit it names. -/
def parseStringUnits : List Char → Option (List Nat × List Char)
  | [] => none
  | c :: cs =>
    if c = '"' then some ([], cs)
    else if c = '\\' then
      match cs with
      | [] => none
      | e :: r =>
        if e = '"' then (parseStringUnits r).map (fun p => (34 :: p.1, p.2))
        else if e = '\\' then (parseStringUnits r).map (fun p => (92 :: p.1, p.2))
        else if e = '/' then (parseStringUnits r).map (fun p => (47 :: p.1, p.2))
        else if e = 'b' then (parseStringUnits r).map (fun p => (8 :: p.1, p.2))
        else if e = 'f' then (parseStringUnits r).map (fun p => (12 :: p.1, p.2))
        else if e = 'n' then (parseStringUnits r).map (fun p => (10 :: p.1, p.2))
        else if e = 'r' then (parseStringUnits r).map (fun p => (13 :: p.1, p.2))
        else if e = 't' then (parseStringUnits r).map (fun p => (9 :: p.1, p.2))
        else if e = 'u' then
          match r with
          | a :: b :: c' :: d :: r1 =>
            match hex4Val a b c' d with
            | none => none
            | some n => (parseStringUnits r1).map (fun p => (n :: p.1, p.2))
          | _ => none
        else none
    else if c.toNat < 32 then none
    else (parseStringUnits cs).map (fun p => (c.toNat :: p.1, p.2))

/-- The characters a sequence of code units spells: a high surrogate followed by a low
one is one character. -/
def unitsToChars : List Nat → List Char
  | [] => []
  | n :: rest =>
    match rest with
    | [] => [unitChar n]
    | m :: rest' =>
      if isHighSurrogate n && isLowSurrogate m then pairChar n m :: unitsToChars rest'
      else unitChar n :: unitsToChars (m :: rest')

/-- The characters of a string literal after its opening quote, up to the closing quote,
and the input after it. -/
def parseStringChars (cs : List Char) : Option (List Char × List Char) :=
  (parseStringUnits cs).map (fun p => (unitsToChars p.1, p.2))

/-- The input after the characters `word`, when it starts with them. -/
def expect : List Char → List Char → Option (List Char)
  | [], cs => some cs
  | _ :: _, [] => none
  | w :: ws, c :: cs => if w = c then expect ws cs else none

/-- The optional fraction of a number literal: its digits and the input after it. -/
def parseFraction (cs : List Char) : Option (List Char × List Char) :=
  match cs with
  | [] => some ([], [])
  | c :: r =>
    if c = '.' then
      (if (JS.takeDigits r).1.isEmpty then none else some (JS.takeDigits r))
    else some ([], c :: r)

/-- The optional exponent of a number literal: its value and the input after it. -/
def parseExponent (cs : List Char) : Option (Int × List Char) :=
  match cs with
  | [] => some (0, [])
  | c :: r =>
    if c = 'e' ∨ c = 'E' then
      match r with
      | [] => none
      | s :: r' =>
        if s = '-' then
          (if (JS.takeDigits r').1.isEmpty then none
           else some (- (JS.charsToNat (JS.takeDigits r').1 : Int), (JS.takeDigits r').2))
        else if s = '+' then
          (if (JS.takeDigits r').1.isEmpty then none
           else some ((JS.charsToNat (JS.takeDigits r').1 : Int), (JS.takeDigits r').2))
        else
          (if (JS.takeDigits (s :: r')).1.isEmpty then none
           else some ((JS.charsToNat (JS.takeDigits (s :: r')).1 : Int),
             (JS.takeDigits (s :: r')).2))
    else some (0, c :: r)

/-- The number with decimal digits `digits`, `scale` of them after the point, times ten
to the `exponent`, in the one representation a `JSON.num` has. -/
def decimalValue (digits : Nat) (scale : Nat) (exponent : Int) : Nat × Nat :=
  if 0 ≤ exponent - scale then (digits * 10 ^ (exponent - scale).toNat, 0)
  else JS.normalizeDecimal digits (scale - exponent).toNat

/-- The digits of a number literal, after its sign: integer part without a leading zero,
optional fraction, optional exponent. -/
def parseUnsigned (cs : List Char) : Option ((Nat × Nat) × List Char) :=
  if (JS.takeDigits cs).1.isEmpty then none
  else if (JS.takeDigits cs).1.head? = some '0' ∧ 1 < (JS.takeDigits cs).1.length then none
  else
    match parseFraction (JS.takeDigits cs).2 with
    | none => none
    | some (fs, r) =>
      match parseExponent r with
      | none => none
      | some (x, r') =>
        some (decimalValue (JS.charsToNat ((JS.takeDigits cs).1 ++ fs)) fs.length x, r')

/-- A number literal and the input after it. -/
def parseNumber (cs : List Char) : Option (JSON × List Char) :=
  match cs with
  | [] => none
  | c :: r =>
    if c = '-' then
      (parseUnsigned r).map (fun p => (JSON.num (- (p.1.1 : Int)) p.1.2, p.2))
    else (parseUnsigned (c :: r)).map (fun p => (JSON.num (p.1.1 : Int) p.1.2, p.2))

mutual
/-- A JSON value at the start of the input, after whitespace, and the input after it.
Every nested value costs one unit of `fuel`. -/
def parseValue : Nat → List Char → Option (JSON × List Char)
  | 0, _ => none
  | fuel + 1, cs =>
    match skipWs cs with
    | [] => none
    | c :: rest =>
      if c = '{' then
        match skipWs rest with
        | [] => none
        | d :: rest' =>
          if d = '}' then some (JSON.obj [], rest')
          else (parseMembers fuel (d :: rest') []).map (fun p => (JSON.obj p.1, p.2))
      else if c = '[' then
        match skipWs rest with
        | [] => none
        | d :: rest' =>
          if d = ']' then some (JSON.arr [], rest')
          else (parseElements fuel (d :: rest')).map (fun p => (JSON.arr p.1, p.2))
      else if c = '"' then
        (parseStringChars rest).map (fun p => (JSON.str (String.mk p.1), p.2))
      else if c = 't' then (expect ['r', 'u', 'e'] rest).map (fun r => (JSON.bool true, r))
      else if c = 'f' then
        (expect ['a', 'l', 's', 'e'] rest).map (fun r => (JSON.bool false, r))
      else if c = 'n' then (expect ['u', 'l', 'l'] rest).map (fun r => (JSON.null, r))
      else parseNumber (c :: rest)
/-- The elements of an array after its opening bracket, up to the closing bracket. -/
def parseElements : Nat → List Char → Option (List JSON × List Char)
  | 0, _ => none
  | fuel + 1, cs =>
    match parseValue fuel cs with
    | none => none
    | some (v, r) =>
      match skipWs r with
      | [] => none
      | d :: r' =>
        if d = ',' then (parseElements fuel r').map (fun p => (v :: p.1, p.2))
        else if d = ']' then some ([v], r')
        else none
/-- The members of an object after its opening brace, up to the closing brace, added to
the members `acc` read so far; a repeated key overwrites the earlier member. -/
def parseMembers : Nat → List Char → List (String × JSON) →
    Option (List (String × JSON) × List Char)
  | 0, _, _ => none
  | fuel + 1, cs, acc =>
    match skipWs cs with
    | [] => none
    | q :: r0 =>
      if q = '"' then
        match parseStringChars r0 with
        | none => none
        | some (k, r1) =>
          match skipWs r1 with
          | [] => none
          | col :: r2 =>
            if col = ':' then
              match parseValue fuel r2 with
              | none => none
              | some (v, r3) =>
                match skipWs r3 with
                | [] => none
                | d :: r4 =>
                  if d = ',' then parseMembers fuel r4 (setKey (String.mk k) v acc)
                  else if d = '}' then some (setKey (String.mk k) v acc, r4)
                  else none
            else none
      else none
end

/-- The call `JSON.parse(text)`: the value the text denotes, or `none` when the text is
not JSON (JavaScript throws a `SyntaxError`). -/
def parse (text : String) : Option JSON :=
  match parseValue (text.length + 1) text.data with
  | none => none
  | some (v, rest) => if (skipWs rest).isEmpty then some v else none

end JSON

/-! ## The imported package `semver` -/

namespace semver

/-- The longest version string the package accepts. -/
def MAX_LENGTH : Nat := 256

/-- The largest number a version component may be. -/
def MAX_SAFE_INTEGER : Nat := 9007199254740991

/-- The characters `String.prototype.trim` removes: white space and line terminators. -/
def isTrimChar (c : Char) : Bool :=
  [9, 10, 11, 12, 13, 32, 160, 5760, 8232, 8233, 8239, 8287, 12288, 65279].contains c.toNat ||
    (decide (8192 ≤ c.toNat) && decide (c.toNat ≤ 8202))

/-- The method `String.prototype.trim`, on character lists. -/
def trim (cs : List Char) : List Char :=
  (((cs.dropWhile isTrimChar).reverse).dropWhile isTrimChar).reverse

/-- The input up to the first `sep`, and what follows that `sep` when there is one. -/
def splitFirst (sep : Char) : List Char → List Char × Option (List Char)
  | [] => ([], none)
  | c :: cs =>
    if c = sep then ([], some cs)
    else ((splitFirst sep cs).1.cons c, (splitFirst sep cs).2)

/-- The method `String.prototype.split` for a one-character separator. -/
def splitOn (sep : Char) : List Char → List (List Char)
  | [] => [[]]
  | c :: cs =>
    if c = sep then [] :: splitOn sep cs
    else ((splitOn sep cs).headD []).cons c :: (splitOn sep cs).tail

/-- The characters of `[a-zA-Z]`. -/
def isLetter (c : Char) : Bool :=
  (decide (65 ≤ c.toNat) && decide (c.toNat ≤ 90)) ||
    (decide (97 ≤ c.toNat) && decide (c.toNat ≤ 122))

/-- The characters of `[0-9A-Za-z-]`. -/
def isIdentChar (c : Char) : Bool :=
  JS.isDigit c || isLetter c || decide (c = '-')

/-- The pattern `0|[1-9]\d*`: a decimal numeral without a leading zero. -/
def numericIdentifier (cs : List Char) : Bool :=
  match cs with
  | [] => false
  | c :: rest => (c :: rest).all JS.isDigit && (!decide (c = '0') || rest.isEmpty)

/-- The pattern `0|[1-9]\d*|\d*[a-zA-Z-][a-zA-Z0-9-]*` of a pre-release identifier. -/
def prereleaseIdentifier (cs : List Char) : Bool :=
  !cs.isEmpty && cs.all isIdentChar && (!cs.all JS.isDigit || numericIdentifier cs)

/-- The pattern `[0-9A-Za-z-]+` of a build identifier. -/
def buildIdentifier (cs : List Char) : Bool :=
  !cs.isEmpty && cs.all isIdentChar

/-- The fields of a `SemVer` object that `inc` and `format` use. -/
structure SemVer where
  major : Nat
  minor : Nat
  patch : Nat
  prerelease : List String
  build : List String
  deriving DecidableEq

/-- The dot-separated identifiers after a `-` or a `+`, when each passes `ok`; no
separator at all gives no identifiers. -/
def identifiers (ok : List Char → Bool) : Option (List Char) → Option (List String)
  | none => some []
  | some cs => if (splitOn '.' cs).all ok then some ((splitOn '.' cs).map String.mk) else none

/-- The three numbers of `MAJOR.MINOR.PATCH`, each a numeral without a leading zero and
at most `MAX_SAFE_INTEGER`. -/
def parseCore (cs : List Char) : Option (Nat × Nat × Nat) :=
  match splitOn '.' cs with
  | [a, b, c] =>
    if numericIdentifier a && numericIdentifier b && numericIdentifier c &&
        decide (JS.charsToNat a ≤ MAX_SAFE_INTEGER) &&
        decide (JS.charsToNat b ≤ MAX_SAFE_INTEGER) &&
        decide (JS.charsToNat c ≤ MAX_SAFE_INTEGER) then
      some (JS.charsToNat a, JS.charsToNat b, JS.charsToNat c)
    else none
  | _ => none

/-- The text without the one `v` it may start with (the `v?` of the pattern). -/
def withoutV : List Char → List Char
  | [] => []
  | c :: cs => if c = 'v' then cs else c :: cs

/-- The constructor `new SemVer(version)` in strict mode, on a string: the trimmed text
has to match `^v?MAJOR.MINOR.PATCH(-PRERELEASE)?(+BUILD)?$`; `none` when it throws. -/
def parse (version : String) : Option SemVer :=
  if MAX_LENGTH < version.length then none
  else
    match parseCore (splitFirst '-' (splitFirst '+' (withoutV (trim version.data))).1).1,
      identifiers prereleaseIdentifier
        (splitFirst '-' (splitFirst '+' (withoutV (trim version.data))).1).2,
      identifiers buildIdentifier (splitFirst '+' (withoutV (trim version.data))).2 with
    | some (major, minor, patch), some pre, some build =>
      some { major := major, minor := minor, patch := patch, prerelease := pre, build := build }
    | _, _, _ => none

/-- The release types of `inc` that leave a release version. -/
inductive ReleaseType where
  | major
  | minor
  | patch
  deriving DecidableEq

/-- The method `SemVer.prototype.inc` for the release types above. A minor increment of a
pre-release of a minor version (`1.2.0-5`) gives that minor version (`1.2.0`). -/
def SemVer.inc (v : SemVer) : ReleaseType → SemVer
  | .major =>
    { v with
      major := if v.minor ≠ 0 ∨ v.patch ≠ 0 ∨ v.prerelease.length = 0 then v.major + 1
               else v.major
      minor := 0, patch := 0, prerelease := [] }
  | .minor =>
    { v with
      minor := if v.patch ≠ 0 ∨ v.prerelease.length = 0 then v.minor + 1 else v.minor
      patch := 0, prerelease := [] }
  | .patch =>
    { v with
      patch := if v.prerelease.length = 0 then v.patch + 1 else v.patch
      prerelease := [] }

/-- The method `SemVer.prototype.format`: `major.minor.patch`, then `-` and the
pre-release identifiers joined by dots when there are any. -/
def SemVer.format (v : SemVer) : String :=
  String.mk (JS.natToChars v.major ++ '.' :: (JS.natToChars v.minor ++
    '.' :: (JS.natToChars v.patch ++
      (if v.prerelease.isEmpty then []
       else '-' :: List.intercalate ['.'] (v.prerelease.map String.data)))))

/-- The call `semver.inc(version, release)`: the incremented version, or `null` when
`version` is not a string that is a valid version (`none` is `undefined`). -/
def inc (version : Option JSON) (release : ReleaseType) : JSON :=
  match version with
  | some (JSON.str s) =>
    (match parse s with
     | some v => JSON.str (v.inc release).format
     | none => JSON.null)
  | _ => JSON.null

end semver

/-! ## The class `Santari` -/

/-- A value a promise is rejected with or a callback throws. -/
inductive JSError where
  | text (message : String)
  | typeError
  | syntaxError
  | other (info : String)
  deriving DecidableEq

/-- The way a method's promise ends. `threw` is an exception raised inside the callback
the method hands to the hosting client: `resolve` is not called, and the promise is
rejected with the error only when the client runs the callback before the method returns. -/
inductive Outcome (α : Type) where
  | resolved (value : α)
  | rejected (reason : JSError)
  | threw (error : JSError)

/-- The commit a branch points to. -/
structure Commit where
  sha : String
  deriving DecidableEq

/-- A branch as the hosting client reports it. -/
structure Branch where
  name : String
  commit : Commit
  deriving DecidableEq

/-- The answer to a contents request: revision marker, path and base64 content. -/
structure Contents where
  sha : String
  path : String
  content : String
  deriving DecidableEq

/-- The object `prOpts`. -/
structure PullRequestOpts where
  title : String
  body : String
  head : String
  base : String
  deriving DecidableEq

/-- A call on the repository handle `this.repoDetails`. -/
inductive Request where
  | branches
  | branch (name : String)
  | contents (path : String)
  | createReference (ref sha : String)
  | updateContents (path message content sha branch : String)
  | pr (opts : PullRequestOpts)
  deriving DecidableEq

/-- A call a method makes outside the instance: on the repository handle of a
repository, on the scratch-file helper, or on the resolver. -/
inductive Effect where
  | remote (repo : String) (request : Request)
  | writePackageJson (content path : String)
  | ncuRun (packageFile : String)
  deriving DecidableEq

/-- Whether a request changes the remote repository. -/
def Request.isWrite : Request → Bool
  | .createReference _ _ => true
  | .updateContents _ _ _ _ _ => true
  | .pr _ => true
  | _ => false

/-- Whether an effect is a call on the hosting client that changes the repository. -/
def Effect.isRemoteWrite : Effect → Bool
  | .remote _ request => request.isWrite
  | _ => false

/-- What the methods take from modules that are not part of the class: the decoding
`Buffer.from(content, 'base64').toString()`, the imported `deep-equal` function, the
directory `os-tmpdir` returns and `path.join`. -/
structure Env where
  base64ToString : String → String
  deepEqual : JSON → JSON → Bool
  osTmpdir : String
  pathJoin : String → String → String

/-- The fields of an instance. -/
structure Santari where
  repoDetails : String
  masterSHA : String
  packageSHA : String
  packagePath : String
  packageJSON : JSON
  packageTempPath : String
  depBranchName : String
  mainBranch : String
  prOpts : PullRequestOpts

/-- What a method call does: how its promise ends, the instance afterwards, and the calls
it made, in order. -/
structure Step (α : Type) where
  outcome : Outcome α
  self : Santari
  effects : List Effect

namespace Santari

/-- The constructor, for the repository name and the number `random` that
`Math.random()` returns; the product `random * 100000` is taken exactly. -/
def «constructor» (repoName : String) (random : ℚ) : Santari :=
  { repoDetails := repoName
    masterSHA := ""
    packageSHA := ""
    packagePath := ""
    packageJSON := JSON.str ""
    packageTempPath := ""
    depBranchName := "update-deps-santari-" ++ String.mk (JS.intToChars ⌈random * 100000⌉)
    mainBranch := "master"
    prOpts :=
      { title := "Updating Dependencies"
        body := "Dependencies to Update"
        head := "update-deps-santari-" ++ String.mk (JS.intToChars ⌈random * 100000⌉)
        base := "master" } }

/-- The method `checkAlreadyExists`; `answer` is what the branch listing calls back with. -/
def checkAlreadyExists (self : Santari) (answer : Except JSError (List Branch)) : Step Bool :=
  match answer with
  | .error err =>
    { outcome := .rejected err, self := self
      effects := [.remote self.repoDetails .branches] }
  | .ok branches =>
    if 0 < (branches.filter (fun f => JS.includes f.name "update-deps-santari")).length then
      { outcome := .rejected (.text "PR/Branch is already created and active!"), self := self
        effects := [.remote self.repoDetails .branches] }
    else
      { outcome := .resolved true, self := self
        effects := [.remote self.repoDetails .branches] }

/-- The method `getBranchDetails`; a missing argument is the default `'master'`. -/
def getBranchDetails (self : Santari) (branchName : Option String)
    (answer : Except JSError Branch) : Step Branch :=
  match answer with
  | .error err =>
    { outcome := .rejected err, self := self
      effects := [.remote self.repoDetails (.branch (branchName.getD "master"))] }
  | .ok result =>
    { outcome := .resolved result
      self := { self with mainBranch := branchName.getD "master", masterSHA := result.commit.sha }
      effects := [.remote self.repoDetails (.branch (branchName.getD "master"))] }

/-- The method `writePackageToTemp`; `tempId` is what `uuid()` returns. -/
def writePackageToTemp (env : Env) (self : Santari) (content tempId : String) :
    Santari × List Effect :=
  ({ self with packageTempPath := env.pathJoin env.osTmpdir ("package_" ++ tempId ++ ".json") },
   [.writePackageJson content (env.pathJoin env.osTmpdir ("package_" ++ tempId ++ ".json"))])

/-- The method `getPackageDetails`; `answer` is what the contents request calls back with
and `tempId` what `uuid()` returns. The two markers are assigned before the content is
parsed, and a content that is not JSON makes `JSON.parse` throw inside the callback. -/
def getPackageDetails (env : Env) (self : Santari) (answer : Except JSError Contents)
    (tempId : String) : Step Contents :=
  match answer with
  | .error err =>
    { outcome := .rejected err, self := self
      effects := [.remote self.repoDetails (.contents "package.json")] }
  | .ok result =>
    match JSON.parse (env.base64ToString result.content) with
    | none =>
      { outcome := .threw .syntaxError
        self := { self with packageSHA := result.sha, packagePath := result.path }
        effects := [.remote self.repoDetails (.contents "package.json")] }
    | some json =>
      { outcome := .resolved result
        self := (writePackageToTemp env
          { self with packageSHA := result.sha, packagePath := result.path, packageJSON := json }
          result.content tempId).1
        effects := .remote self.repoDetails (.contents "package.json") ::
          (writePackageToTemp env
            { self with packageSHA := result.sha, packagePath := result.path, packageJSON := json }
            result.content tempId).2 }

/-- The method `checkForUpdates`; `answer` is how the promise of `ncu.run` ends. The
value `JSON.null` is the `null` of "nothing to update". -/
def checkForUpdates (env : Env) (self : Santari) (answer : Except JSError JSON) : Step JSON :=
  match answer with
  | .error e =>
    { outcome := .rejected e, self := self, effects := [.ncuRun self.packageTempPath] }
  | .ok newPackageJSON =>
    if env.deepEqual newPackageJSON self.packageJSON then
      { outcome := .resolved JSON.null, self := self, effects := [.ncuRun self.packageTempPath] }
    else
      { outcome := .resolved newPackageJSON, self := self
        effects := [.ncuRun self.packageTempPath] }

/-- The method `createBranch`; `answer` is what the reference creation calls back with. -/
def createBranch (self : Santari) (answer : Except JSError JSON) : Step JSON :=
  if self.masterSHA.isEmpty then
    { outcome := .rejected (.text "SHA is invalid."), self := self, effects := [] }
  else
    match answer with
    | .error err =>
      { outcome := .rejected err, self := self
        effects := [.remote self.repoDetails (.createReference self.depBranchName self.masterSHA)] }
    | .ok result =>
      { outcome := .resolved result, self := self
        effects := [.remote self.repoDetails (.createReference self.depBranchName self.masterSHA)] }

/-- The statement `content.version = semver.inc(content.version, 'minor')` of
`updatePackageFile`: the content afterwards, or `none` when the statement throws a
`TypeError` (the class body is strict code, so a property of `null` cannot be read and a
property of a primitive cannot be written). A property `version` of an array is not one of
its elements. -/
def bumpVersion (content : JSON) : Option JSON :=
  match content with
  | .obj kvs => some (.obj (JSON.setKey "version" (semver.inc (JSON.lookup "version" kvs) .minor) kvs))
  | .arr xs => some (.arr xs)
  | _ => none

/-- The method `updatePackageFile`; `answer` is what the contents update calls back with. -/
def updatePackageFile (self : Santari) (commitMessage : String) (content : JSON)
    (answer : Except JSError JSON) : Step JSON :=
  if self.packageSHA.isEmpty || self.packagePath.isEmpty then
    { outcome := .rejected (.text "Package SHA/Path is invalid"), self := self, effects := [] }
  else
    match bumpVersion content with
    | none => { outcome := .rejected .typeError, self := self, effects := [] }
    | some bumped =>
      match answer with
      | .error err =>
        { outcome := .rejected err, self := self
          effects := [.remote self.repoDetails (.updateContents self.packagePath commitMessage
            (JSON.stringify bumped 2) self.packageSHA self.depBranchName)] }
      | .ok result =>
        { outcome := .resolved result, self := self
          effects := [.remote self.repoDetails (.updateContents self.packagePath commitMessage
            (JSON.stringify bumped 2) self.packageSHA self.depBranchName)] }

/-- The method `createPR`; `answer` is what the pull-request creation calls back with. -/
def createPR (self : Santari) (answer : Except JSError JSON) : Step JSON :=
  match answer with
  | .error err =>
    { outcome := .rejected err, self := self, effects := [.remote self.repoDetails (.pr self.prOpts)] }
  | .ok result =>
    { outcome := .resolved result, self := self
      effects := [.remote self.repoDetails (.pr self.prOpts)] }

end Santari

/-! ## Sequences of method calls -/

/-- A method call on an instance, with its arguments and the answer of the collaborator
it calls. -/
inductive Op where
  | checkAlreadyExists (answer : Except JSError (List Branch))
  | getBranchDetails (branchName : Option String) (answer : Except JSError Branch)
  | getPackageDetails (answer : Except JSError Contents) (tempId : String)
  | checkForUpdates (answer : Except JSError JSON)
  | createBranch (answer : Except JSError JSON)
  | updatePackageFile (commitMessage : String) (content : JSON) (answer : Except JSError JSON)
  | createPR (answer : Except JSError JSON)

/-- A step without the value its promise resolves with. -/
def Step.forget {α : Type} (step : Step α) : Step Unit :=
  { outcome :=
      (match step.outcome with
       | .resolved _ => .resolved ()
       | .rejected e => .rejected e
       | .threw e => .threw e)
    self := step.self
    effects := step.effects }

/-- Whether a promise was resolved. -/
def Outcome.isResolved {α : Type} : Outcome α → Bool
  | .resolved _ => true
  | _ => false

namespace Santari

/-- One method call on an instance. -/
def perform (env : Env) (self : Santari) : Op → Step Unit
  | .checkAlreadyExists answer => (self.checkAlreadyExists answer).forget
  | .getBranchDetails branchName answer => (self.getBranchDetails branchName answer).forget
  | .getPackageDetails answer tempId => (self.getPackageDetails env answer tempId).forget
  | .checkForUpdates answer => (self.checkForUpdates env answer).forget
  | .createBranch answer => (self.createBranch answer).forget
  | .updatePackageFile commitMessage content answer =>
    (self.updatePackageFile commitMessage content answer).forget
  | .createPR answer => (self.createPR answer).forget

/-- The instance after a sequence of method calls, whatever the way each ends. -/
def run (env : Env) (self : Santari) : List Op → Santari
  | [] => self
  | op :: ops => run env (self.perform env op).self ops

/-- The calls a sequence of method calls makes, in order. -/
def trace (env : Env) (self : Santari) : List Op → List Effect
  | [] => []
  | op :: ops => (self.perform env op).effects ++ trace env (self.perform env op).self ops

end Santari

/-- The contents answer of the most recent `getPackageDetails` of a sequence whose remote
read succeeded, whether or not its content then parsed. -/
def lastRead : List Op → Option Contents
  | [] => none
  | .getPackageDetails (.ok result) _ :: ops => (lastRead ops).orElse (fun _ => some result)
  | _ :: ops => lastRead ops

/-- The contents answer of the most recent `getPackageDetails` of a sequence that was
successful: the remote read succeeded and the promise was resolved. -/
def lastResolvedRead (env : Env) : List Op → Option Contents
  | [] => none
  | .getPackageDetails (.ok result) _ :: ops =>
    (lastResolvedRead env ops).orElse (fun _ =>
      if (JSON.parse (env.base64ToString result.content)).isSome then some result else none)
  | _ :: ops => lastResolvedRead env ops

/-- The branch answer of the most recent successful `getBranchDetails` of a sequence. -/
def lastBranch : List Op → Option Branch
  | [] => none
  | .getBranchDetails _ (.ok result) :: ops => (lastBranch ops).orElse (fun _ => some result)
  | _ :: ops => lastBranch ops

/-- The instances of a program, by identity. -/
abbrev World := Nat → Santari

/-- One method call on the instance `i` of a world: the world afterwards. -/
def World.perform (env : Env) (world : World) (i : Nat) (op : Op) : World :=
  Function.update world i ((world i).perform env op).self

/-! ## Plain data -/

namespace JSON

mutual
/-- Whether a value is plain data: every number is a safe integer and no object has two
members of the same key. This is the data `JSON.parse` gives back as it was serialised. -/
def isPlainData : JSON → Bool
  | .num mant scale => decide (scale = 0) && decide (mant.natAbs ≤ semver.MAX_SAFE_INTEGER)
  | .arr xs => elementsPlain xs
  | .obj kvs => membersPlain kvs
  | _ => true
/-- Whether the elements of an array are plain data. -/
def elementsPlain : List JSON → Bool
  | [] => true
  | x :: xs => isPlainData x && elementsPlain xs
/-- Whether the members of an object are plain data with different keys. -/
def membersPlain : List (String × JSON) → Bool
  | [] => true
  | (k, v) :: kvs => isPlainData v && (lookup k kvs).isNone && membersPlain kvs
end

end JSON

/-! ## An environment for worked examples -/

namespace JSON

mutual
/-- Deep structural equality of two JSON values: same kind, same leaves, same elements
and same members in the same order. -/
def structEq : JSON → JSON → Bool
  | .null, .null => true
  | .bool a, .bool b => a == b
  | .num m s, .num m' s' => m == m' && s == s'
  | .str a, .str b => a == b
  | .arr xs, .arr ys => structEqElements xs ys
  | .obj xs, .obj ys => structEqMembers xs ys
  | _, _ => false
/-- Deep structural equality of two element lists. -/
def structEqElements : List JSON → List JSON → Bool
  | [], [] => true
  | x :: xs, y :: ys => structEq x y && structEqElements xs ys
  | _, _ => false
/-- Deep structural equality of two member lists. -/
def structEqMembers : List (String × JSON) → List (String × JSON) → Bool
  | [], [] => true
  | (k, x) :: xs, (k', y) :: ys => k == k' && structEq x y && structEqMembers xs ys
  | _, _ => false
end

end JSON

/-- An environment for worked examples: content travels as plain text, values are compared
by `JSON.structEq`, scratch files go to `/tmp`. -/
def sampleEnv : Env :=
  { base64ToString := fun content => content
    deepEqual := JSON.structEq
    osTmpdir := "/tmp"
    pathJoin := fun dir file => dir ++ "/" ++ file }

/-- The manifest of the first scenario: `{"version":"1.2.3","dependencies":{"a":"^1.0.0"}}`. -/
def manifestA : JSON :=
  .obj [("version", .str "1.2.3"), ("dependencies", .obj [("a", .str "^1.0.0")])]

/-- The upgraded manifest of the second scenario:
`{"version":"2.4.9","dependencies":{"a":"^2.0.0"}}`. -/
def upgradedB : JSON :=
  .obj [("version", .str "2.4.9"), ("dependencies", .obj [("a", .str "^2.0.0")])]

/-- An instance that has read the head of `master` and the manifest of the first
scenario. -/
def readyInstance : Santari :=
  { repoDetails := "owner/repo"
    masterSHA := "7fd1a60b"
    packageSHA := "3d21ec53"
    packagePath := "package.json"
    packageJSON := manifestA
    packageTempPath := "/tmp/package_1.json"
    depBranchName := "update-deps-santari-42"
    mainBranch := "master"
    prOpts :=
      { title := "Updating Dependencies"
        body := "Dependencies to Update"
        head := "update-deps-santari-42"
        base := "master" } }

/-! ## The two readings of revision-marker integrity -/

/-- Revision-marker integrity of `updatePackageFile` after the calls `ops` on a new
instance, relative to a choice `last` of the manifest read that counts: every contents
update the method makes passes the path and the marker of that read, and targets the
update branch. -/
def MarkerIntegrity (last : List Op → Option Contents) (env : Env) (repoName : String)
    (random : ℚ) (ops : List Op) (commitMessage : String) (content : JSON)
    (answer : Except JSError JSON) : Prop :=
  ∀ e ∈ (((Santari.constructor repoName random).run env ops).updatePackageFile
      commitMessage content answer).effects,
    ∃ c text, last ops = some c ∧
      e = .remote repoName (.updateContents c.path commitMessage text c.sha
        ((Santari.constructor repoName random).run env ops).depBranchName)

/-! # Theorems -/

/-! ## Strings -/

theorem JS.includesChars_iff_infix (s t : List Char) :
    JS.includesChars s t = true ↔ t <:+: s := by
  induction s with
  | nil =>
    cases t with
    | nil => simp [JS.includesChars]
    | cons c cs => simp [JS.includesChars]
  | cons c cs ih =>
    rw [JS.includesChars, Bool.or_eq_true, ih, List.isPrefixOf_iff_prefix, List.infix_cons_iff]

theorem JS.includes_iff_infix (s t : String) :
    JS.includes s t = true ↔ t.data <:+: s.data :=
  JS.includesChars_iff_infix s.data t.data

theorem JS.includes_append_left (s t : String) : JS.includes (s ++ t) s = true := by
  rw [JS.includes_iff_infix, String.data_append]
  exact (List.prefix_append _ _).isInfix

/-! ## What each method leaves of the instance -/

namespace Santari

theorem checkAlreadyExists_self (self : Santari) (answer : Except JSError (List Branch)) :
    (self.checkAlreadyExists answer).self = self := by
  unfold checkAlreadyExists
  split
  · rfl
  · split <;> rfl

theorem checkForUpdates_self (env : Env) (self : Santari) (answer : Except JSError JSON) :
    (self.checkForUpdates env answer).self = self := by
  unfold checkForUpdates
  split
  · rfl
  · split <;> rfl

theorem createBranch_self (self : Santari) (answer : Except JSError JSON) :
    (self.createBranch answer).self = self := by
  unfold createBranch
  split
  · rfl
  · split <;> rfl

theorem updatePackageFile_self (self : Santari) (commitMessage : String) (content : JSON)
    (answer : Except JSError JSON) :
    (self.updatePackageFile commitMessage content answer).self = self := by
  unfold updatePackageFile
  split
  · rfl
  · split
    · rfl
    · split <;> rfl

theorem createPR_self (self : Santari) (answer : Except JSError JSON) :
    (self.createPR answer).self = self := by
  unfold createPR
  split <;> rfl

theorem getBranchDetails_self (self : Santari) (branchName : Option String)
    (answer : Except JSError Branch) :
    (self.getBranchDetails branchName answer).self =
      match answer with
      | .error _ => self
      | .ok result =>
        { self with mainBranch := branchName.getD "master", masterSHA := result.commit.sha } := by
  unfold getBranchDetails
  split <;> rfl

theorem getPackageDetails_self (env : Env) (self : Santari) (answer : Except JSError Contents)
    (tempId : String) :
    (self.getPackageDetails env answer tempId).self =
      match answer with
      | .error _ => self
      | .ok result =>
        match JSON.parse (env.base64ToString result.content) with
        | none => { self with packageSHA := result.sha, packagePath := result.path }
        | some json =>
          { self with
            packageSHA := result.sha, packagePath := result.path, packageJSON := json
            packageTempPath := env.pathJoin env.osTmpdir ("package_" ++ tempId ++ ".json") } := by
  unfold getPackageDetails
  split
  · rfl
  · split <;> rfl

/-- The instance after one method call of a sequence. -/
theorem perform_self (env : Env) (self : Santari) (op : Op) :
    (self.perform env op).self =
      match op with
      | .getBranchDetails branchName answer => (self.getBranchDetails branchName answer).self
      | .getPackageDetails answer tempId => (self.getPackageDetails env answer tempId).self
      | _ => self := by
  cases op <;> simp only [perform, Step.forget, checkAlreadyExists_self, checkForUpdates_self,
    createBranch_self, updatePackageFile_self, createPR_self]

theorem perform_repoDetails (env : Env) (self : Santari) (op : Op) :
    (self.perform env op).self.repoDetails = self.repoDetails := by
  rw [perform_self]
  split
  · rw [getBranchDetails_self]; split <;> rfl
  · rw [getPackageDetails_self]; split
    · rfl
    · split <;> rfl
  · rfl

theorem perform_prOpts (env : Env) (self : Santari) (op : Op) :
    (self.perform env op).self.prOpts = self.prOpts := by
  rw [perform_self]
  split
  · rw [getBranchDetails_self]; split <;> rfl
  · rw [getPackageDetails_self]; split
    · rfl
    · split <;> rfl
  · rfl

theorem run_repoDetails (env : Env) (ops : List Op) (self : Santari) :
    (self.run env ops).repoDetails = self.repoDetails := by
  induction ops generalizing self with
  | nil => rfl
  | cons op ops ih => rw [run, ih, perform_repoDetails]

theorem run_prOpts (env : Env) (ops : List Op) (self : Santari) :
    (self.run env ops).prOpts = self.prOpts := by
  induction ops generalizing self with
  | nil => rfl
  | cons op ops ih => rw [run, ih, perform_prOpts]

theorem run_append (env : Env) (ops ops' : List Op) (self : Santari) :
    self.run env (ops ++ ops') = (self.run env ops).run env ops' := by
  induction ops generalizing self with
  | nil => rfl
  | cons op ops ih => exact ih _

end Santari

/-! ## The markers an instance holds after a sequence of calls -/

namespace Santari

theorem run_packageMarkers (env : Env) (ops : List Op) (self : Santari) :
    (self.run env ops).packageSHA = ((lastRead ops).map Contents.sha).getD self.packageSHA ∧
    (self.run env ops).packagePath = ((lastRead ops).map Contents.path).getD self.packagePath := by
  induction ops generalizing self with
  | nil => exact ⟨rfl, rfl⟩
  | cons op ops ih =>
    rw [run]
    obtain ⟨h1, h2⟩ := ih (self.perform env op).self
    rw [h1, h2, perform_self]
    cases op with
    | getPackageDetails answer tempId =>
      cases answer with
      | error e => exact ⟨rfl, rfl⟩
      | ok result =>
        simp only [getPackageDetails_self, lastRead]
        cases lastRead ops with
        | some c => exact ⟨rfl, rfl⟩
        | none =>
          cases JSON.parse (env.base64ToString result.content) <;> exact ⟨rfl, rfl⟩
    | getBranchDetails branchName answer =>
      cases answer <;> exact ⟨rfl, rfl⟩
    | _ => exact ⟨rfl, rfl⟩

theorem run_masterSHA (env : Env) (ops : List Op) (self : Santari) :
    (self.run env ops).masterSHA =
      ((lastBranch ops).map (fun b => b.commit.sha)).getD self.masterSHA := by
  induction ops generalizing self with
  | nil => rfl
  | cons op ops ih =>
    rw [run, ih, perform_self]
    cases op with
    | getBranchDetails branchName answer =>
      cases answer with
      | error e => rfl
      | ok result =>
        simp only [getBranchDetails_self, lastBranch]
        cases lastBranch ops <;> rfl
    | getPackageDetails answer tempId =>
      cases answer with
      | error e => rfl
      | ok result =>
        simp only [getPackageDetails_self, lastBranch]
        cases JSON.parse (env.base64ToString result.content) <;> rfl
    | _ => rfl

end Santari

/-! ## The duplicate guard -/

/-- The test of `checkAlreadyExists`: the filtered list has an element exactly when some
branch name has the reserved string as an infix. -/
theorem Santari.reserved_filter_pos (branches : List Branch) :
    0 < (branches.filter (fun f => JS.includes f.name "update-deps-santari")).length ↔
      ∃ b ∈ branches, "update-deps-santari".data <:+: b.name.data := by
  rw [List.length_pos, Ne, List.filter_eq_nil_iff]
  simp only [JS.includes_iff_infix, not_forall, Classical.not_imp, not_not, exists_prop]

/-- C2. On a branch list returned without error, `checkAlreadyExists` is rejected with
'PR/Branch is already created and active!' exactly when some branch name contains
'update-deps-santari', and is resolved with `true` otherwise; either way the branch
listing is its only call and the instance is unchanged. -/
theorem checkAlreadyExists_duplicate_guard (self : Santari) (branches : List Branch) :
    ((self.checkAlreadyExists (.ok branches)).outcome =
        .rejected (.text "PR/Branch is already created and active!") ↔
      ∃ b ∈ branches, "update-deps-santari".data <:+: b.name.data) ∧
    ((¬ ∃ b ∈ branches, "update-deps-santari".data <:+: b.name.data) →
      (self.checkAlreadyExists (.ok branches)).outcome = .resolved true) ∧
    (self.checkAlreadyExists (.ok branches)).effects = [.remote self.repoDetails .branches] ∧
    (self.checkAlreadyExists (.ok branches)).self = self := by
  have key := Santari.reserved_filter_pos branches
  refine ⟨?_, ?_, ?_, Santari.checkAlreadyExists_self _ _⟩
  · rw [← key]
    unfold Santari.checkAlreadyExists
    by_cases h : 0 < (branches.filter
        (fun f => JS.includes f.name "update-deps-santari")).length
    · simp [h]
    · simp [h]
  · intro hno
    rw [← key] at hno
    unfold Santari.checkAlreadyExists
    simp [hno]
  · unfold Santari.checkAlreadyExists
    simp only
    split <;> rfl

/-! ## No-change detection -/

/-- C8. After any calls on a new instance, `createBranch` is rejected with
'SHA is invalid.' without a call exactly when `masterSHA` is empty, which it is when no
`getBranchDetails` has succeeded; otherwise `masterSHA` is the commit sha of the most
recent successful `getBranchDetails`, the one call made is the creation of the reference
`depBranchName` at `masterSHA`, and the promise ends as that call does; the instance is
unchanged. -/
theorem createBranch_precondition (env : Env) (repoName : String) (random : ℚ)
    (ops : List Op) (answer : Except JSError JSON) :
    ((((Santari.constructor repoName random).run env ops).createBranch answer).outcome =
          .rejected (.text "SHA is invalid.") ∧
        (((Santari.constructor repoName random).run env ops).createBranch answer).effects = [] ↔
      ((Santari.constructor repoName random).run env ops).masterSHA = "") ∧
    (lastBranch ops = none → ((Santari.constructor repoName random).run env ops).masterSHA = "") ∧
    (∀ b, lastBranch ops = some b →
      ((Santari.constructor repoName random).run env ops).masterSHA = b.commit.sha) ∧
    (((Santari.constructor repoName random).run env ops).masterSHA ≠ "" →
      (((Santari.constructor repoName random).run env ops).createBranch answer).effects =
          [.remote repoName (.createReference
            ((Santari.constructor repoName random).run env ops).depBranchName
            ((Santari.constructor repoName random).run env ops).masterSHA)] ∧
        (((Santari.constructor repoName random).run env ops).createBranch answer).outcome =
          (match answer with
           | .ok result => .resolved result
           | .error err => .rejected err)) ∧
    (((Santari.constructor repoName random).run env ops).createBranch answer).self =
      (Santari.constructor repoName random).run env ops := by
  have hrepo : ((Santari.constructor repoName random).run env ops).repoDetails = repoName :=
    Santari.run_repoDetails env ops _
  have hsha := Santari.run_masterSHA env ops (Santari.constructor repoName random)
  refine ⟨?_, ?_, ?_, ?_, Santari.createBranch_self _ _⟩
  · unfold Santari.createBranch
    by_cases h : ((Santari.constructor repoName random).run env ops).masterSHA = ""
    · simp [h, String.isEmpty_iff]
    · have h' : ¬ ((Santari.constructor repoName random).run env ops).masterSHA.isEmpty = true := by
        rwa [String.isEmpty_iff]
      cases answer <;> simp [h, h']
  · intro hnone
    rw [hsha, hnone]
    rfl
  · intro b hb
    rw [hsha, hb]
    rfl
  · intro h
    have h' : ¬ ((Santari.constructor repoName random).run env ops).masterSHA.isEmpty = true := by
      rwa [String.isEmpty_iff]
    unfold Santari.createBranch
    cases answer <;> simp [h', hrepo]

/-! ## The pull-request request -/

/-- C10, at the failing input. After a successful `getBranchDetails` for a branch `name`,
the instance has `mainBranch = name`, yet the request `createPR` passes is the `prOpts` of
the constructor: its head is `depBranchName` and its base is still 'master'. -/
theorem createPR_base_after_getBranchDetails (repoName : String) (random : ℚ) (name : String)
    (result : Branch) (answer : Except JSError JSON) :
    (((Santari.constructor repoName random).getBranchDetails (some name) (.ok result)).self).mainBranch
        = name ∧
    ((((Santari.constructor repoName random).getBranchDetails (some name) (.ok result)).self).createPR
        answer).effects =
      [.remote repoName (.pr
        { title := "Updating Dependencies"
          body := "Dependencies to Update"
          head := (Santari.constructor repoName random).depBranchName
          base := "master" })] := by
  refine ⟨rfl, ?_⟩
  unfold Santari.createPR
  cases answer <;> rfl

/-! ## The order of the remote writes -/

/-- C5. On an instance that holds a main-branch revision and a manifest marker and path,
with a content `updatePackageFile` can bump and every call succeeding, the calls
`createBranch`, `updatePackageFile`, `createPR` make exactly three calls, all of them
remote writes: the reference creation, then the contents update, then the pull-request
creation; each promise is resolved with the answer of its call. -/
theorem mutation_order (env : Env) (self : Santari) (commitMessage : String)
    (content bumped r1 r2 r3 : JSON)
    (hm : self.masterSHA ≠ "") (hs : self.packageSHA ≠ "") (hp : self.packagePath ≠ "")
    (hc : Santari.bumpVersion content = some bumped) :
    self.trace env [.createBranch (.ok r1), .updatePackageFile commitMessage content (.ok r2),
        .createPR (.ok r3)] =
      [.remote self.repoDetails (.createReference self.depBranchName self.masterSHA),
       .remote self.repoDetails (.updateContents self.packagePath commitMessage
          (JSON.stringify bumped 2) self.packageSHA self.depBranchName),
       .remote self.repoDetails (.pr self.prOpts)] ∧
    (self.trace env [.createBranch (.ok r1), .updatePackageFile commitMessage content (.ok r2),
        .createPR (.ok r3)]).map Effect.isRemoteWrite = [true, true, true] ∧
    (self.createBranch (.ok r1)).outcome = .resolved r1 ∧
    (self.updatePackageFile commitMessage content (.ok r2)).outcome = .resolved r2 ∧
    (self.createPR (.ok r3)).outcome = .resolved r3 := by
  have hm' : self.masterSHA.isEmpty = false := by
    rw [Bool.eq_false_iff, Ne, String.isEmpty_iff]; exact hm
  have hs' : self.packageSHA.isEmpty = false := by
    rw [Bool.eq_false_iff, Ne, String.isEmpty_iff]; exact hs
  have hp' : self.packagePath.isEmpty = false := by
    rw [Bool.eq_false_iff, Ne, String.isEmpty_iff]; exact hp
  have h1 : (self.createBranch (.ok r1)) =
      { outcome := .resolved r1, self := self
        effects := [.remote self.repoDetails
          (.createReference self.depBranchName self.masterSHA)] } := by
    simp [Santari.createBranch, hm']
  have h2 : (self.updatePackageFile commitMessage content (.ok r2)) =
      { outcome := .resolved r2, self := self
        effects := [.remote self.repoDetails (.updateContents self.packagePath commitMessage
          (JSON.stringify bumped 2) self.packageSHA self.depBranchName)] } := by
    simp [Santari.updatePackageFile, hs', hp', hc]
  have h3 : (self.createPR (.ok r3)) =
      { outcome := .resolved r3, self := self
        effects := [.remote self.repoDetails (.pr self.prOpts)] } := rfl
  have ht : self.trace env [.createBranch (.ok r1),
        .updatePackageFile commitMessage content (.ok r2), .createPR (.ok r3)] =
      [.remote self.repoDetails (.createReference self.depBranchName self.masterSHA),
       .remote self.repoDetails (.updateContents self.packagePath commitMessage
          (JSON.stringify bumped 2) self.packageSHA self.depBranchName),
       .remote self.repoDetails (.pr self.prOpts)] := by
    simp [Santari.trace, Santari.perform, Step.forget, h1, h2, h3]
  refine ⟨ht, ?_, ?_, ?_, ?_⟩
  · rw [ht]; rfl
  · rw [h1]
  · rw [h2]
  · rw [h3]

/-- The mutation order at the instance and the upgraded manifest of the second scenario. -/
theorem mutation_order_witness :
    readyInstance.trace sampleEnv [.createBranch (.ok .null),
        .updatePackageFile "Update dependencies" upgradedB (.ok .null), .createPR (.ok .null)] =
      [.remote "owner/repo" (.createReference "update-deps-santari-42" "7fd1a60b"),
       .remote "owner/repo" (.updateContents "package.json" "Update dependencies"
          (JSON.stringify (.obj [("version", .str "2.5.0"),
            ("dependencies", .obj [("a", .str "^2.0.0")])]) 2) "3d21ec53"
          "update-deps-santari-42"),
       .remote "owner/repo" (.pr readyInstance.prOpts)] :=
  (mutation_order sampleEnv readyInstance "Update dependencies" upgradedB
    (.obj [("version", .str "2.5.0"), ("dependencies", .obj [("a", .str "^2.0.0")])])
    .null .null .null (by decide) (by decide) (by decide) (by rfl)).1

/-! ## A manifest that is not JSON -/

/-- C7, as amended. When the contents request succeeds and the decoded content is not
JSON, `getPackageDetails` is not resolved: `JSON.parse` throws the syntax error inside the
callback, after `packageSHA` and `packagePath` have been set to the sha and the path of
the answer; `packageJSON` and `packageTempPath` are as before, and the contents request is
the only call (no scratch file is written). -/
theorem getPackageDetails_decode_failure (env : Env) (self : Santari) (result : Contents)
    (tempId : String) (h : JSON.parse (env.base64ToString result.content) = none) :
    (self.getPackageDetails env (.ok result) tempId).outcome = .threw .syntaxError ∧
    (self.getPackageDetails env (.ok result) tempId).self =
      { self with packageSHA := result.sha, packagePath := result.path } ∧
    (self.getPackageDetails env (.ok result) tempId).self.packageJSON = self.packageJSON ∧
    (self.getPackageDetails env (.ok result) tempId).self.packageTempPath =
      self.packageTempPath ∧
    (self.getPackageDetails env (.ok result) tempId).effects =
      [.remote self.repoDetails (.contents "package.json")] := by
  have hstep : self.getPackageDetails env (.ok result) tempId =
      { outcome := .threw .syntaxError
        self := { self with packageSHA := result.sha, packagePath := result.path }
        effects := [.remote self.repoDetails (.contents "package.json")] } := by
    unfold Santari.getPackageDetails
    simp only [h]
  rw [hstep]
  exact ⟨rfl, rfl, rfl, rfl, rfl⟩

/-- The decode failure at the content `not json` on the instance of the scenarios. -/
theorem getPackageDetails_decode_failure_witness :
    JSON.parse (sampleEnv.base64ToString "not json") = none ∧
    (readyInstance.getPackageDetails sampleEnv
        (.ok { sha := "9c0e77aa", path := "package.json", content := "not json" }) "2").outcome =
      .threw .syntaxError ∧
    (readyInstance.getPackageDetails sampleEnv
        (.ok { sha := "9c0e77aa", path := "package.json", content := "not json" }) "2").self.packageSHA
      = "9c0e77aa" :=
  ⟨rfl,
   (getPackageDetails_decode_failure sampleEnv readyInstance
      { sha := "9c0e77aa", path := "package.json", content := "not json" } "2" rfl).1,
   congrArg Santari.packageSHA
     (getPackageDetails_decode_failure sampleEnv readyInstance
      { sha := "9c0e77aa", path := "package.json", content := "not json" } "2" rfl).2.1⟩

/-- C7 as stated fails: the contents request answers with the sha `9c0e77aa` and a content
that is not JSON, and afterwards `packageSHA` is no longer the `3d21ec53` it was, so the
call did not both end in a rejection and leave the three fields as they were. -/
theorem getPackageDetails_decode_failure_not_framed :
    JSON.parse (sampleEnv.base64ToString "not json") = none ∧
    ¬ ((∃ e, (readyInstance.getPackageDetails sampleEnv
          (.ok { sha := "9c0e77aa", path := "package.json", content := "not json" }) "2").outcome
          = .rejected e) ∧
       (readyInstance.getPackageDetails sampleEnv
          (.ok { sha := "9c0e77aa", path := "package.json", content := "not json" }) "2").self.packageSHA
          = readyInstance.packageSHA ∧
       (readyInstance.getPackageDetails sampleEnv
          (.ok { sha := "9c0e77aa", path := "package.json", content := "not json" }) "2").self.packagePath
          = readyInstance.packagePath ∧
       (readyInstance.getPackageDetails sampleEnv
          (.ok { sha := "9c0e77aa", path := "package.json", content := "not json" }) "2").self.packageJSON
          = readyInstance.packageJSON) := by
  refine ⟨rfl, ?_⟩
  rintro ⟨-, hsha, -, -⟩
  have h : (readyInstance.getPackageDetails sampleEnv
      (.ok { sha := "9c0e77aa", path := "package.json", content := "not json" }) "2").self.packageSHA
      = "9c0e77aa" := rfl
  rw [h] at hsha
  exact absurd hsha (by decide)

/-! ## Revision-marker integrity -/

/-- C4, as amended. After any calls on a new instance, a contents update made by
`updatePackageFile` passes the path and the sha of the most recent `getPackageDetails`
whose contents request succeeded (whether or not its content then parsed); no call other
than `getPackageDetails` changes `packageSHA` or `packagePath`; and a call on one instance
of a world leaves every other instance as it was and depends on no other instance. -/
theorem revision_marker_integrity (env : Env) (repoName : String) (random : ℚ)
    (ops : List Op) (commitMessage : String) (content : JSON) (answer : Except JSError JSON) :
    MarkerIntegrity lastRead env repoName random ops commitMessage content answer ∧
    (∀ (self : Santari) (op : Op), (∀ a t, op ≠ .getPackageDetails a t) →
      (self.perform env op).self.packageSHA = self.packageSHA ∧
      (self.perform env op).self.packagePath = self.packagePath) ∧
    (∀ (world : World) (i j : Nat) (op : Op), j ≠ i → World.perform env world i op j = world j) ∧
    (∀ (world world' : World) (i : Nat) (op : Op), world i = world' i →
      World.perform env world i op i = World.perform env world' i op i ∧
      ((world i).perform env op).effects = ((world' i).perform env op).effects) := by
  refine ⟨?_, ?_, ?_, ?_⟩
  · intro e he
    obtain ⟨hsha, hpath⟩ := Santari.run_packageMarkers env ops (Santari.constructor repoName random)
    have hrepo : ((Santari.constructor repoName random).run env ops).repoDetails = repoName :=
      Santari.run_repoDetails env ops _
    unfold Santari.updatePackageFile at he
    split at he
    · simp at he
    · rename_i hne
      simp only [Bool.or_eq_true, String.isEmpty_iff, not_or] at hne
      cases hl : lastRead ops with
      | none =>
        rw [hl] at hsha
        exact absurd hsha hne.1
      | some c =>
        rw [hl] at hsha hpath
        simp only [Option.map_some', Option.getD_some] at hsha hpath
        split at he
        · simp at he
        · rename_i bumped hb
          refine ⟨c, JSON.stringify bumped 2, rfl, ?_⟩
          cases answer <;> simp only [List.mem_singleton] at he <;>
            rw [he, hsha, hpath, hrepo]
  · intro self op hop
    rw [Santari.perform_self]
    cases op with
    | getPackageDetails a t => exact absurd rfl (hop a t)
    | getBranchDetails branchName answer =>
      cases answer <;> exact ⟨rfl, rfl⟩
    | _ => exact ⟨rfl, rfl⟩
  · intro world i j op hji
    exact Function.update_noteq hji _ _
  · intro world world' i op h
    simp only [World.perform, Function.update_same, h, and_self]

/-- C4 as stated fails. A manifest read that is resolved (sha `3d21ec53`) is followed by
one whose content is not JSON (sha `9c0e77aa`): the most recent successful
`getPackageDetails` returned `3d21ec53`, and the contents update passes `9c0e77aa`. -/
theorem revision_marker_of_failed_read :
    lastResolvedRead sampleEnv
        [.getPackageDetails (.ok { sha := "3d21ec53", path := "package.json", content := "{}" }) "1",
         .getPackageDetails
          (.ok { sha := "9c0e77aa", path := "package.json", content := "not json" }) "2"] =
      some { sha := "3d21ec53", path := "package.json", content := "{}" } ∧
    ¬ MarkerIntegrity (lastResolvedRead sampleEnv) sampleEnv "owner/repo" 0
        [.getPackageDetails (.ok { sha := "3d21ec53", path := "package.json", content := "{}" }) "1",
         .getPackageDetails
          (.ok { sha := "9c0e77aa", path := "package.json", content := "not json" }) "2"]
        "Update dependencies" upgradedB (.ok .null) := by
  have hlast : lastResolvedRead sampleEnv
        [.getPackageDetails (.ok { sha := "3d21ec53", path := "package.json", content := "{}" }) "1",
         .getPackageDetails
          (.ok { sha := "9c0e77aa", path := "package.json", content := "not json" }) "2"] =
      some { sha := "3d21ec53", path := "package.json", content := "{}" } := rfl
  refine ⟨hlast, ?_⟩
  intro h
  obtain ⟨c, text, hc, he⟩ := h
    (.remote "owner/repo" (.updateContents "package.json" "Update dependencies"
      (JSON.stringify (.obj [("version", .str "2.5.0"),
        ("dependencies", .obj [("a", .str "^2.0.0")])]) 2) "9c0e77aa"
      ((Santari.constructor "owner/repo" 0).run sampleEnv
        [.getPackageDetails (.ok { sha := "3d21ec53", path := "package.json", content := "{}" }) "1",
         .getPackageDetails
          (.ok { sha := "9c0e77aa", path := "package.json", content := "not json" }) "2"]).depBranchName))
    (by
      rw [List.mem_iff_get]
      exact ⟨⟨0, by decide⟩, rfl⟩)
  rw [hlast] at hc
  cases hc
  simp only [Effect.remote.injEq, Request.updateContents.injEq] at he
  exact absurd he.2.2.2.2.1 (by decide)

/-! ## Decimal numerals -/

namespace JS

theorem digitsRev_fuel (f1 : Nat) : ∀ (f2 n : Nat), n < f1 → n < f2 →
    digitsRev f1 n = digitsRev f2 n := by
  induction f1 with
  | zero => intro f2 n h; omega
  | succ f1 ih =>
    intro f2 n h1 h2
    cases f2 with
    | zero => omega
    | succ f2 =>
      simp only [digitsRev]
      split
      · rfl
      · rw [ih f2 (n / 10) (by omega) (by omega)]

/-- The numeral of a number: one digit below ten, otherwise the numeral of the tens
followed by the digit of the units. -/
theorem natToChars_eq (n : Nat) :
    natToChars n =
      if n < 10 then [digitChar n] else natToChars (n / 10) ++ [digitChar (n % 10)] := by
  unfold natToChars
  split
  · rename_i h
    simp [digitsRev, h]
  · rename_i h
    rw [digitsRev]
    simp only [h, if_false, List.reverse_cons, List.map_append, List.map_cons, List.map_nil]
    rw [digitsRev_fuel n (n / 10 + 1) (n / 10) (by omega) (by omega)]

theorem digitChar_toNat (d : Nat) (h : d < 10) : (digitChar d).toNat = 48 + d := by
  interval_cases d <;> rfl

theorem isDigit_digitChar (d : Nat) (h : d < 10) : isDigit (digitChar d) = true := by
  interval_cases d <;> rfl

theorem digitVal_digitChar (d : Nat) (h : d < 10) : digitVal (digitChar d) = d := by
  interval_cases d <;> rfl

theorem charsToNat_append_singleton (cs : List Char) (c : Char) :
    charsToNat (cs ++ [c]) = charsToNat cs * 10 + digitVal c := by
  simp [charsToNat, List.foldl_append]

/-- Reading a numeral gives the number back. -/
theorem charsToNat_natToChars (n : Nat) : charsToNat (natToChars n) = n := by
  induction n using Nat.strong_induction_on with
  | _ n ih =>
    rw [natToChars_eq]
    split
    · rename_i h
      simp [charsToNat, digitVal_digitChar n h]
    · rename_i h
      rw [charsToNat_append_singleton, ih (n / 10) (by omega),
        digitVal_digitChar _ (Nat.mod_lt _ (by decide))]
      omega

theorem natToChars_all_isDigit (n : Nat) : ∀ c ∈ natToChars n, isDigit c = true := by
  induction n using Nat.strong_induction_on with
  | _ n ih =>
    rw [natToChars_eq]
    split
    · rename_i h
      intro c hc
      rw [List.mem_singleton] at hc
      rw [hc]
      exact isDigit_digitChar n h
    · rename_i h
      intro c hc
      rw [List.mem_append, List.mem_singleton] at hc
      rcases hc with hc | hc
      · exact ih (n / 10) (by omega) c hc
      · rw [hc]
        exact isDigit_digitChar _ (Nat.mod_lt _ (by decide))

theorem natToChars_ne_nil (n : Nat) : natToChars n ≠ [] := by
  rw [natToChars_eq]
  split <;> simp

/-- A numeral of more than one digit does not start with `0`. -/
theorem natToChars_head (n : Nat) :
    ∃ c rest, natToChars n = c :: rest ∧ (c = '0' → rest = []) := by
  induction n using Nat.strong_induction_on with
  | _ n ih =>
    rw [natToChars_eq]
    split
    · exact ⟨digitChar n, [], rfl, fun _ => rfl⟩
    · rename_i h
      obtain ⟨c, rest, hc, hz⟩ := ih (n / 10) (by omega)
      refine ⟨c, rest ++ [digitChar (n % 10)], by rw [hc]; rfl, ?_⟩
      intro h0
      exfalso
      have hrest := hz h0
      have hval := charsToNat_natToChars (n / 10)
      rw [hc, hrest, h0] at hval
      have : charsToNat ['0'] = 0 := rfl
      omega

end JS

/-! ## The name of the update branch -/

namespace Santari

end Santari

namespace semver

theorem splitFirst_not_mem (sep : Char) (cs : List Char) (h : sep ∉ cs) :
    splitFirst sep cs = (cs, none) := by
  induction cs with
  | nil => rfl
  | cons c cs ih =>
    rw [List.mem_cons, not_or] at h
    rw [splitFirst, if_neg (Ne.symm h.1), ih h.2]

theorem splitFirst_append (sep : Char) (a b : List Char) (h : sep ∉ a) :
    splitFirst sep (a ++ sep :: b) = (a, some b) := by
  induction a with
  | nil => simp [splitFirst]
  | cons c cs ih =>
    rw [List.mem_cons, not_or] at h
    rw [List.cons_append, splitFirst, if_neg (Ne.symm h.1), ih h.2]

theorem splitOn_not_mem (sep : Char) (cs : List Char) (h : sep ∉ cs) :
    splitOn sep cs = [cs] := by
  induction cs with
  | nil => rfl
  | cons c cs ih =>
    rw [List.mem_cons, not_or] at h
    rw [splitOn, if_neg (Ne.symm h.1), ih h.2]
    rfl

theorem splitOn_append (sep : Char) (a b : List Char) (h : sep ∉ a) :
    splitOn sep (a ++ sep :: b) = a :: splitOn sep b := by
  induction a with
  | nil => simp [splitOn]
  | cons c cs ih =>
    rw [List.mem_cons, not_or] at h
    rw [List.cons_append, splitOn, if_neg (Ne.symm h.1), ih h.2]
    rfl

theorem splitOn_intercalate (sep : Char) (first : List Char) (rest : List (List Char))
    (h : ∀ p ∈ first :: rest, sep ∉ p) :
    splitOn sep (List.intercalate [sep] (first :: rest)) = first :: rest := by
  induction rest generalizing first with
  | nil =>
    have hone : List.intercalate [sep] [first] = first := by simp [List.intercalate]
    rw [hone]
    exact splitOn_not_mem sep first (h first (List.mem_cons_self _ _))
  | cons second rest ih =>
    have hstep : List.intercalate [sep] (first :: second :: rest) =
        first ++ sep :: List.intercalate [sep] (second :: rest) := by
      simp [List.intercalate]
    rw [hstep, splitOn_append sep _ _ (h first (List.mem_cons_self _ _)),
      ih second (fun p hp => h p (List.mem_cons_of_mem _ hp))]

theorem trim_eq_self (cs : List Char)
    (hhead : ∀ c ∈ cs.head?, isTrimChar c = false)
    (hlast : ∀ c ∈ cs.getLast?, isTrimChar c = false) : trim cs = cs := by
  unfold trim
  have h1 : cs.dropWhile isTrimChar = cs := by
    cases cs with
    | nil => rfl
    | cons c cs =>
      have := hhead c rfl
      simp [List.dropWhile, this]
  rw [h1]
  have h2 : cs.reverse.dropWhile isTrimChar = cs.reverse := by
    cases hr : cs.reverse with
    | nil => rfl
    | cons c rest =>
      have hc : cs.getLast? = some c := by
        rw [← List.head?_reverse, hr]; rfl
      have := hlast c hc
      simp [List.dropWhile, this]
  rw [h2, List.reverse_reverse]

theorem isDigit_props (c : Char) (h : JS.isDigit c = true) :
    c ≠ '.' ∧ c ≠ '-' ∧ c ≠ '+' ∧ c ≠ 'v' ∧ isTrimChar c = false ∧ isIdentChar c = true := by
  simp only [JS.isDigit, Bool.and_eq_true, decide_eq_true_eq] at h
  refine ⟨?_, ?_, ?_, ?_, ?_, ?_⟩
  · rintro rfl; simp at h
  · rintro rfl; simp at h
  · rintro rfl; simp at h
  · rintro rfl; simp at h
  · simp only [isTrimChar, List.contains, List.elem_eq_mem, List.mem_cons, List.mem_singleton,
      List.not_mem_nil, or_false, Bool.or_eq_false_iff, decide_eq_false_iff_not,
      Bool.and_eq_false_imp, decide_eq_true_eq]
    omega
  · simp [isIdentChar, JS.isDigit, h]

theorem isIdentChar_props (c : Char) (h : isIdentChar c = true) :
    c ≠ '.' ∧ c ≠ '+' ∧ isTrimChar c = false := by
  have hcases : (48 ≤ c.toNat ∧ c.toNat ≤ 57) ∨ (65 ≤ c.toNat ∧ c.toNat ≤ 90) ∨
      (97 ≤ c.toNat ∧ c.toNat ≤ 122) ∨ c.toNat = 45 := by
    simp only [isIdentChar, JS.isDigit, isLetter, Bool.or_eq_true, Bool.and_eq_true,
      decide_eq_true_eq] at h
    rcases h with (h | h | h) | h
    · exact Or.inl h
    · exact Or.inr (Or.inl h)
    · exact Or.inr (Or.inr (Or.inl h))
    · exact Or.inr (Or.inr (Or.inr (by rw [h]; rfl)))
  refine ⟨?_, ?_, ?_⟩
  · rintro rfl; simp at hcases
  · rintro rfl; simp at hcases
  · simp only [isTrimChar, List.contains, List.elem_eq_mem, List.mem_cons, List.mem_singleton,
      List.not_mem_nil, or_false, Bool.or_eq_false_iff, decide_eq_false_iff_not,
      Bool.and_eq_false_imp, decide_eq_true_eq]
    omega

end semver

namespace semver

theorem mem_intercalate (sep c : Char) (l : List (List Char))
    (h : c ∈ List.intercalate [sep] l) : c = sep ∨ ∃ p ∈ l, c ∈ p := by
  induction l with
  | nil => simp [List.intercalate] at h
  | cons first rest ih =>
    cases rest with
    | nil =>
      have hone : List.intercalate [sep] [first] = first := by simp [List.intercalate]
      rw [hone] at h
      exact Or.inr ⟨first, List.mem_cons_self _ _, h⟩
    | cons second rest =>
      have hstep : List.intercalate [sep] (first :: second :: rest) =
          first ++ sep :: List.intercalate [sep] (second :: rest) := by
        simp [List.intercalate]
      rw [hstep, List.mem_append, List.mem_cons] at h
      rcases h with h | h | h
      · exact Or.inr ⟨first, List.mem_cons_self _ _, h⟩
      · exact Or.inl h
      · rcases ih h with h' | ⟨p, hp, hc⟩
        · exact Or.inl h'
        · exact Or.inr ⟨p, List.mem_cons_of_mem _ hp, hc⟩

theorem numericIdentifier_natToChars (n : Nat) : numericIdentifier (JS.natToChars n) = true := by
  obtain ⟨c, rest, hc, hz⟩ := JS.natToChars_head n
  have hall := JS.natToChars_all_isDigit n
  rw [hc] at hall ⊢
  simp only [numericIdentifier, Bool.and_eq_true, List.all_eq_true, Bool.or_eq_true,
    Bool.not_eq_true', decide_eq_false_iff_not, List.isEmpty_iff]
  refine ⟨hall, ?_⟩
  by_cases h0 : c = '0'
  · exact Or.inr (hz h0)
  · exact Or.inl h0

theorem prereleaseIdentifier_props (cs : List Char) (h : prereleaseIdentifier cs = true) :
    cs ≠ [] ∧ ∀ c ∈ cs, isIdentChar c = true := by
  simp only [prereleaseIdentifier, Bool.and_eq_true, Bool.not_eq_true', List.isEmpty_eq_false,
    List.all_eq_true] at h
  exact ⟨h.1.1, h.1.2⟩

end semver

namespace semver

/-- The characters of a formatted version: the core, then the pre-release suffix. -/
theorem format_data (v : SemVer) :
    v.format.data =
      (JS.natToChars v.major ++ '.' :: (JS.natToChars v.minor ++ '.' :: JS.natToChars v.patch)) ++
        (if v.prerelease.isEmpty then []
         else '-' :: List.intercalate ['.'] (v.prerelease.map String.data)) := by
  simp [SemVer.format, List.append_assoc]

theorem core_chars (X Y Z : Nat) :
    ∀ c ∈ JS.natToChars X ++ '.' :: (JS.natToChars Y ++ '.' :: JS.natToChars Z),
      JS.isDigit c = true ∨ c = '.' := by
  intro c hc
  simp only [List.mem_append, List.mem_cons] at hc
  rcases hc with h | h | h | h | h
  · exact Or.inl (JS.natToChars_all_isDigit X c h)
  · exact Or.inr h
  · exact Or.inl (JS.natToChars_all_isDigit Y c h)
  · exact Or.inr h
  · exact Or.inl (JS.natToChars_all_isDigit Z c h)

theorem parseCore_core (X Y Z : Nat) (hX : X ≤ MAX_SAFE_INTEGER) (hY : Y ≤ MAX_SAFE_INTEGER)
    (hZ : Z ≤ MAX_SAFE_INTEGER) :
    parseCore (JS.natToChars X ++ '.' :: (JS.natToChars Y ++ '.' :: JS.natToChars Z)) =
      some (X, Y, Z) := by
  have hdot : ∀ n : Nat, '.' ∉ JS.natToChars n := fun n hmem =>
    (isDigit_props '.' (JS.natToChars_all_isDigit n '.' hmem)).1 rfl
  unfold parseCore
  rw [splitOn_append '.' _ _ (hdot X), splitOn_append '.' _ _ (hdot Y),
    splitOn_not_mem '.' _ (hdot Z)]
  simp only [numericIdentifier_natToChars, JS.charsToNat_natToChars, hX, hY, hZ, decide_True,
    Bool.and_self, if_true]

/-- Reading a formatted version gives the version back: for components up to
`MAX_SAFE_INTEGER`, pre-release identifiers of the pattern, no build metadata and at most
`MAX_LENGTH` characters. -/
theorem parse_format (v : SemVer) (hX : v.major ≤ MAX_SAFE_INTEGER)
    (hY : v.minor ≤ MAX_SAFE_INTEGER) (hZ : v.patch ≤ MAX_SAFE_INTEGER)
    (hpre : ∀ p ∈ v.prerelease, prereleaseIdentifier p.data = true) (hbuild : v.build = [])
    (hlen : v.format.length ≤ MAX_LENGTH) : parse v.format = some v := by
  obtain ⟨X, Y, Z, pre, build⟩ := v
  simp only at hX hY hZ hpre hbuild
  subst hbuild
  have hdata := format_data ⟨X, Y, Z, pre, []⟩
  simp only at hdata
  have hcore := core_chars X Y Z
  have hdash : '-' ∉ JS.natToChars X ++ '.' :: (JS.natToChars Y ++ '.' :: JS.natToChars Z) := by
    intro hmem
    rcases hcore '-' hmem with h | h
    · exact (isDigit_props '-' h).2.1 rfl
    · exact absurd h (by decide)
  have hsuffix : ∀ c ∈ (if pre.isEmpty then []
      else '-' :: List.intercalate ['.'] (pre.map String.data)),
      isIdentChar c = true ∨ c = '.' := by
    intro c hc
    split at hc
    · simp at hc
    · rw [List.mem_cons] at hc
      rcases hc with h | h
      · rw [h]; exact Or.inl rfl
      · rcases mem_intercalate '.' c _ h with h' | ⟨p, hp, hcp⟩
        · exact Or.inr h'
        · rw [List.mem_map] at hp
          obtain ⟨q, hq, rfl⟩ := hp
          exact Or.inl ((prereleaseIdentifier_props _ (hpre q hq)).2 c hcp)
  have hall : ∀ c ∈ (String.data (SemVer.format ⟨X, Y, Z, pre, []⟩)),
      isIdentChar c = true ∨ c = '.' := by
    intro c hc
    rw [hdata, List.mem_append] at hc
    rcases hc with h | h
    · rcases hcore c h with h' | h'
      · exact Or.inl (isDigit_props c h').2.2.2.2.2
      · exact Or.inr h'
    · exact hsuffix c h
  have hnotrim : ∀ c ∈ (String.data (SemVer.format ⟨X, Y, Z, pre, []⟩)),
      isTrimChar c = false := by
    intro c hc
    rcases hall c hc with h | h
    · exact (isIdentChar_props c h).2.2
    · rw [h]; rfl
  have hplus : '+' ∉ (String.data (SemVer.format ⟨X, Y, Z, pre, []⟩)) := by
    intro hmem
    rcases hall '+' hmem with h | h
    · exact (isIdentChar_props '+' h).2.1 rfl
    · exact absurd h (by decide)
  have htrim : trim (String.data (SemVer.format ⟨X, Y, Z, pre, []⟩)) =
      String.data (SemVer.format ⟨X, Y, Z, pre, []⟩) :=
    trim_eq_self _ (fun c hc => hnotrim c (List.mem_of_mem_head? hc))
      (fun c hc => hnotrim c (List.mem_of_mem_getLast? hc))
  have hv : withoutV (String.data (SemVer.format ⟨X, Y, Z, pre, []⟩)) =
      String.data (SemVer.format ⟨X, Y, Z, pre, []⟩) := by
    obtain ⟨c, rest, hc, -⟩ := JS.natToChars_head X
    have hcd : JS.isDigit c = true :=
      JS.natToChars_all_isDigit X c (by rw [hc]; exact List.mem_cons_self _ _)
    rw [hdata, hc]
    simp only [List.cons_append, withoutV]
    rw [if_neg (isDigit_props c hcd).2.2.2.1]
  have hlen' : ¬ MAX_LENGTH < (SemVer.format ⟨X, Y, Z, pre, []⟩).length := by omega
  unfold parse
  rw [if_neg hlen', htrim, hv, splitFirst_not_mem '+' _ hplus]
  simp only
  rw [hdata]
  cases pre with
  | nil =>
    simp only [List.isEmpty_nil, if_true, List.append_nil]
    rw [splitFirst_not_mem '-' _ hdash]
    simp only [parseCore_core X Y Z hX hY hZ, identifiers]
  | cons first rest =>
    simp only [List.isEmpty_cons, Bool.false_eq_true, if_false]
    rw [splitFirst_append '-' _ _ hdash]
    simp only [parseCore_core X Y Z hX hY hZ, identifiers, List.map_cons]
    have hsplit : splitOn '.' (List.intercalate ['.'] (first.data :: rest.map String.data)) =
        first.data :: rest.map String.data := by
      apply splitOn_intercalate
      intro p hp hdot
      have hp' : p ∈ (first :: rest).map String.data := by simpa using hp
      rw [List.mem_map] at hp'
      obtain ⟨q, hq, rfl⟩ := hp'
      exact (isIdentChar_props '.' ((prereleaseIdentifier_props _ (hpre q hq)).2 '.' hdot)).1 rfl
    rw [hsplit]
    have hok : (first.data :: rest.map String.data).all prereleaseIdentifier = true := by
      rw [List.all_eq_true]
      intro p hp
      have hp' : p ∈ (first :: rest).map String.data := by simpa using hp
      rw [List.mem_map] at hp'
      obtain ⟨q, hq, rfl⟩ := hp'
      exact hpre q hq
    rw [if_pos hok]
    simp [Function.comp_def]

end semver

/-! ## The version bump -/

/-- C1, as amended. For a manifest whose version is `X.Y.Z` or `X.Y.Z-pre` (components up
to `MAX_SAFE_INTEGER`, valid pre-release identifiers, at most 256 characters),
`updatePackageFile` sets the version of the manifest it commits to `X.(Y+1).0` when `Z` is
not `0` or there is no pre-release suffix, and to `X.Y.0` when the version is `X.Y.0-pre`;
the text it passes to the contents update is the serialisation of that manifest. -/
theorem updatePackageFile_version_bump (self : Santari) (commitMessage : String)
    (kvs : List (String × JSON)) (answer : Except JSError JSON) (X Y Z : Nat)
    (pre : List String)
    (hX : X ≤ semver.MAX_SAFE_INTEGER) (hY : Y ≤ semver.MAX_SAFE_INTEGER)
    (hZ : Z ≤ semver.MAX_SAFE_INTEGER)
    (hpre : ∀ p ∈ pre, semver.prereleaseIdentifier p.data = true)
    (hlen : (semver.SemVer.format ⟨X, Y, Z, pre, []⟩).length ≤ semver.MAX_LENGTH)
    (hversion : JSON.lookup "version" kvs = some (.str (semver.SemVer.format ⟨X, Y, Z, pre, []⟩)))
    (hs : self.packageSHA ≠ "") (hp : self.packagePath ≠ "") :
    Santari.bumpVersion (.obj kvs) =
      some (.obj (JSON.setKey "version"
        (.str (String.mk (JS.natToChars X ++ '.' ::
          (JS.natToChars (if Z ≠ 0 ∨ pre = [] then Y + 1 else Y) ++ ['.', '0'])))) kvs)) ∧
    (self.updatePackageFile commitMessage (.obj kvs) answer).effects =
      [.remote self.repoDetails (.updateContents self.packagePath commitMessage
        (JSON.stringify (.obj (JSON.setKey "version"
          (.str (String.mk (JS.natToChars X ++ '.' ::
            (JS.natToChars (if Z ≠ 0 ∨ pre = [] then Y + 1 else Y) ++ ['.', '0'])))) kvs)) 2)
        self.packageSHA self.depBranchName)] := by
  have hparse := semver.parse_format ⟨X, Y, Z, pre, []⟩ hX hY hZ hpre rfl hlen
  have hinc : semver.inc (JSON.lookup "version" kvs) .minor =
      .str (String.mk (JS.natToChars X ++ '.' ::
        (JS.natToChars (if Z ≠ 0 ∨ pre = [] then Y + 1 else Y) ++ ['.', '0']))) := by
    rw [hversion]
    simp only [semver.inc]
    rw [hparse]
    simp only [semver.SemVer.inc, semver.SemVer.format, List.length_eq_zero, List.isEmpty_nil,
      if_true, List.append_nil]
    rfl
  have hbump : Santari.bumpVersion (.obj kvs) =
      some (.obj (JSON.setKey "version"
        (.str (String.mk (JS.natToChars X ++ '.' ::
          (JS.natToChars (if Z ≠ 0 ∨ pre = [] then Y + 1 else Y) ++ ['.', '0'])))) kvs)) := by
    simp only [Santari.bumpVersion, hinc]
  refine ⟨hbump, ?_⟩
  have hs' : self.packageSHA.isEmpty = false := by
    rw [Bool.eq_false_iff, Ne, String.isEmpty_iff]; exact hs
  have hp' : self.packagePath.isEmpty = false := by
    rw [Bool.eq_false_iff, Ne, String.isEmpty_iff]; exact hp
  unfold Santari.updatePackageFile
  cases answer <;> simp [hs', hp', hbump]

/-- The version bump at the upgraded manifest of the second scenario: `2.4.9` becomes
`2.5.0`. -/
theorem updatePackageFile_version_bump_witness :
    Santari.bumpVersion upgradedB =
      some (.obj [("version", .str "2.5.0"), ("dependencies", .obj [("a", .str "^2.0.0")])]) :=
  (updatePackageFile_version_bump readyInstance "Update dependencies"
    [("version", .str "2.4.9"), ("dependencies", .obj [("a", .str "^2.0.0")])] (.ok .null)
    2 4 9 [] (by decide) (by decide) (by decide) (by simp) (by decide) rfl
    (by decide) (by decide)).1

/-- C1 as stated fails at a version of the shape `X.Y.0-pre`: for `1.2.0-beta` the manifest
committed has version `1.2.0`, not `1.3.0`. -/
theorem version_bump_of_prerelease_minor :
    semver.parse "1.2.0-beta" =
      some { major := 1, minor := 2, patch := 0, prerelease := ["beta"], build := [] } ∧
    (readyInstance.updatePackageFile "Update dependencies"
        (.obj [("version", .str "1.2.0-beta")]) (.ok .null)).effects =
      [.remote "owner/repo" (.updateContents "package.json" "Update dependencies"
        "\x7b\n  \"version\": \"1.2.0\"\n\x7d" "3d21ec53" "update-deps-santari-42")] ∧
    Santari.bumpVersion (.obj [("version", .str "1.2.0-beta")]) =
      some (.obj [("version", .str "1.2.0")]) ∧
    Santari.bumpVersion (.obj [("version", .str "1.2.0-beta")]) ≠
      some (.obj [("version", .str "1.3.0")]) := by
  have hb : Santari.bumpVersion (.obj [("version", .str "1.2.0-beta")]) =
      some (.obj [("version", .str "1.2.0")]) := by rfl
  refine ⟨by rfl, by rfl, hb, ?_⟩
  rw [hb]
  intro h
  simp only [Option.some.injEq, JSON.obj.injEq, List.cons.injEq, Prod.mk.injEq,
    JSON.str.injEq, and_true, true_and] at h
  exact absurd h (by decide)

/-! ## Reading back what `JSON.stringify` writes -/

namespace JSON

theorem skipWs_append (ws rest : List Char) (h : ∀ c ∈ ws, isWhitespace c = true) :
    skipWs (ws ++ rest) = skipWs rest := by
  induction ws with
  | nil => rfl
  | cons c cs ih =>
    rw [List.cons_append, skipWs, if_pos (h c (List.mem_cons_self _ _)),
      ih (fun d hd => h d (List.mem_cons_of_mem _ hd))]

theorem skipWs_cons (c : Char) (rest : List Char) (h : isWhitespace c = false) :
    skipWs (c :: rest) = c :: rest := by
  rw [skipWs, if_neg (by rw [h]; exact Bool.false_ne_true)]

theorem parseValue_skip (fuel : Nat) (ws rest : List Char)
    (h : ∀ c ∈ ws, isWhitespace c = true) :
    parseValue fuel (ws ++ rest) = parseValue fuel rest := by
  cases fuel with
  | zero => rfl
  | succ fuel => rw [parseValue, parseValue, skipWs_append ws rest h]

theorem parseElements_skip (fuel : Nat) (ws rest : List Char)
    (h : ∀ c ∈ ws, isWhitespace c = true) :
    parseElements fuel (ws ++ rest) = parseElements fuel rest := by
  cases fuel with
  | zero => rfl
  | succ fuel => rw [parseElements, parseElements, parseValue_skip fuel ws rest h]

theorem parseMembers_skip (fuel : Nat) (ws rest : List Char) (acc : List (String × JSON))
    (h : ∀ c ∈ ws, isWhitespace c = true) :
    parseMembers fuel (ws ++ rest) acc = parseMembers fuel rest acc := by
  cases fuel with
  | zero => rfl
  | succ fuel => rw [parseMembers, parseMembers, skipWs_append ws rest h]

/-! ### Strings -/

theorem unitsToChars_map_toNat (cs : List Char) : unitsToChars (cs.map Char.toNat) = cs := by
  have hchar : ∀ c : Char, isHighSurrogate c.toNat = false ∧ isLowSurrogate c.toNat = false ∧
      Char.ofNat c.toNat = c := by
    intro c
    have hv := c.valid
    simp only [UInt32.isValidChar, Nat.isValidChar] at hv
    have hn : c.toNat = c.val.toNat := rfl
    refine ⟨?_, ?_, ?_⟩
    · simp only [isHighSurrogate, Bool.and_eq_false_imp, decide_eq_true_eq,
        decide_eq_false_iff_not]
      omega
    · simp only [isLowSurrogate, Bool.and_eq_false_imp, decide_eq_true_eq,
        decide_eq_false_iff_not]
      omega
    · exact Char.ofNat_toNat c
  induction cs with
  | nil => rfl
  | cons c cs ih =>
    cases cs with
    | nil =>
      simp only [List.map_cons, List.map_nil, unitsToChars, unitChar, (hchar c).1, (hchar c).2.1,
        Bool.or_self, Bool.false_eq_true, if_false, (hchar c).2.2]
    | cons d ds =>
      simp only [List.map_cons] at ih ⊢
      rw [unitsToChars]
      simp only [(hchar c).1, Bool.false_and, Bool.false_eq_true, if_false, unitChar,
        (hchar c).2.1, Bool.or_self, (hchar c).2.2, ih]

end JSON

namespace JSON

theorem hex4Val_hex4 (n : Nat) (h : n < 32) :
    ∃ a b c d, hex4 n = [a, b, c, d] ∧ hex4Val a b c d = some n := by
  interval_cases n <;> exact ⟨_, _, _, _, rfl, rfl⟩

theorem parseStringUnits_escapeChar (c : Char) (tail rest : List Char) (units : List Nat)
    (h : parseStringUnits tail = some (units, rest)) :
    parseStringUnits (escapeChar c ++ tail) = some (c.toNat :: units, rest) := by
  unfold escapeChar
  split
  · rename_i hc
    subst hc
    rw [parseStringUnits.eq_def]; simp [h]
  split
  · rename_i hc
    subst hc
    rw [parseStringUnits.eq_def]; simp [h]
  split
  · rename_i hc
    rw [parseStringUnits.eq_def]; simp [h, hc]
  split
  · rename_i hc
    rw [parseStringUnits.eq_def]; simp [h, hc]
  split
  · rename_i hc
    rw [parseStringUnits.eq_def]; simp [h, hc]
  split
  · rename_i hc
    rw [parseStringUnits.eq_def]; simp [h, hc]
  split
  · rename_i hc
    rw [parseStringUnits.eq_def]; simp [h, hc]
  split
  · rename_i hc
    obtain ⟨a, b, c', d, hhex, hval⟩ := hex4Val_hex4 c.toNat hc
    rw [hhex]
    rw [parseStringUnits.eq_def]; simp [h, hval]
  · rename_i h1 h2 h3 h4 h5 h6 h7 h8
    rw [List.singleton_append, parseStringUnits.eq_def]
    simp only [if_neg h1, if_neg h2, if_neg h8, h]
    rfl

theorem parseStringUnits_escapeChars (cs rest : List Char) :
    parseStringUnits (escapeChars cs ++ '"' :: rest) = some (cs.map Char.toNat, rest) := by
  induction cs with
  | nil => rw [escapeChars, List.nil_append, parseStringUnits.eq_def]; simp
  | cons c cs ih =>
    rw [escapeChars, List.append_assoc, List.map_cons]
    exact parseStringUnits_escapeChar c _ rest _ ih

/-- A string literal reads back as the string. -/
theorem parseStringChars_quote (s : String) (rest : List Char) :
    ∃ tail, quote s ++ rest = '"' :: tail ∧ parseStringChars tail = some (s.data, rest) := by
  refine ⟨escapeChars s.data ++ '"' :: rest, by simp [quote], ?_⟩
  rw [parseStringChars, parseStringUnits_escapeChars, Option.map_some',
    unitsToChars_map_toNat]

end JSON

/-! ### Numbers -/

namespace JSON

theorem takeDigits_append (ds rest : List Char) (hds : ∀ c ∈ ds, JS.isDigit c = true)
    (hrest : ∀ c ∈ rest.head?, JS.isDigit c = false) :
    JS.takeDigits (ds ++ rest) = (ds, rest) := by
  induction ds with
  | nil =>
    cases rest with
    | nil => rfl
    | cons c cs =>
      have := hrest c rfl
      simp [JS.takeDigits, this]
  | cons d ds ih =>
    rw [List.cons_append, JS.takeDigits, if_pos (hds d (List.mem_cons_self _ _)),
      ih (fun c hc => hds c (List.mem_cons_of_mem _ hc))]

theorem parseUnsigned_natToChars (n : Nat) (rest : List Char)
    (hend : ∀ c ∈ rest.head?, JS.isDigit c = false ∧ c ≠ '.' ∧ c ≠ 'e' ∧ c ≠ 'E') :
    parseUnsigned (JS.natToChars n ++ rest) = some ((n, 0), rest) := by
  have htake := takeDigits_append (JS.natToChars n) rest (JS.natToChars_all_isDigit n)
    (fun c hc => (hend c hc).1)
  obtain ⟨c, tail, hc, hz⟩ := JS.natToChars_head n
  have hfrac : parseFraction rest = some ([], rest) := by
    cases rest with
    | nil => rfl
    | cons d ds =>
      have := (hend d rfl).2.1
      simp [parseFraction, this]
  have hexp : parseExponent rest = some (0, rest) := by
    cases rest with
    | nil => rfl
    | cons d ds =>
      have h1 := (hend d rfl).2.2.1
      have h2 := (hend d rfl).2.2.2
      simp [parseExponent, h1, h2]
  unfold parseUnsigned
  rw [htake]
  simp only
  rw [if_neg (by rw [hc]; simp), if_neg, hfrac]
  · simp only [hexp, List.append_nil, JS.charsToNat_natToChars, List.length_nil, decimalValue]
    simp
  · rw [hc]
    rintro ⟨h0, hlen⟩
    simp only [List.head?_cons, Option.some.injEq] at h0
    rw [hz h0] at hlen
    simp at hlen

theorem parseNumber_intToChars (mant : Int) (rest : List Char)
    (hend : ∀ c ∈ rest.head?, JS.isDigit c = false ∧ c ≠ '.' ∧ c ≠ 'e' ∧ c ≠ 'E') :
    parseNumber (JS.intToChars mant ++ rest) = some (JSON.num mant 0, rest) := by
  unfold JS.intToChars
  split
  · rename_i hneg
    rw [List.cons_append, parseNumber]
    simp only [if_true, parseUnsigned_natToChars _ rest hend, Option.map_some']
    congr 3
    omega
  · rename_i hpos
    obtain ⟨c, tail, hc, -⟩ := JS.natToChars_head mant.natAbs
    have hcd : JS.isDigit c = true :=
      JS.natToChars_all_isDigit _ c (by rw [hc]; exact List.mem_cons_self _ _)
    have hne : c ≠ '-' := (semver.isDigit_props c hcd).2.1
    have hstep : parseNumber (JS.natToChars mant.natAbs ++ rest) =
        (parseUnsigned (JS.natToChars mant.natAbs ++ rest)).map
          (fun p => (JSON.num (p.1.1 : Int) p.1.2, p.2)) := by
      rw [hc, List.cons_append, parseNumber, if_neg hne]
    have habs : ((mant.natAbs : Nat) : Int) = mant := by omega
    rw [hstep, parseUnsigned_natToChars _ rest hend, Option.map_some']
    simp only [habs]

/-- The first character of a numeral of an integer: a minus sign or a digit. -/
theorem intToChars_head (mant : Int) :
    ∃ c tail, JS.intToChars mant = c :: tail ∧ (c = '-' ∨ JS.isDigit c = true) := by
  unfold JS.intToChars
  split
  · exact ⟨'-', _, rfl, Or.inl rfl⟩
  · obtain ⟨c, tail, hc, -⟩ := JS.natToChars_head mant.natAbs
    exact ⟨c, tail, hc, Or.inr
      (JS.natToChars_all_isDigit _ c (by rw [hc]; exact List.mem_cons_self _ _))⟩

end JSON

/-! ### Values -/

namespace JSON

theorem isDigit_not_special (c : Char) (h : JS.isDigit c = true) :
    isWhitespace c = false ∧ c ≠ ']' ∧ c ≠ '}' ∧ c ≠ '{' ∧ c ≠ '[' ∧ c ≠ '"' ∧ c ≠ 't' ∧
      c ≠ 'f' ∧ c ≠ 'n' := by
  simp only [JS.isDigit, Bool.and_eq_true, decide_eq_true_eq] at h
  refine ⟨?_, ?_, ?_, ?_, ?_, ?_, ?_, ?_, ?_⟩
  · simp only [isWhitespace, Bool.or_eq_false_iff, decide_eq_false_iff_not]
    refine ⟨⟨⟨?_, ?_⟩, ?_⟩, ?_⟩ <;> (rintro rfl; simp at h)
  all_goals (rintro rfl; simp at h)

/-- The first character of a serialised value is not whitespace and closes nothing. -/
theorem stringifyValue_head (gap indent : List Char) (v : JSON) (hv : isPlainData v = true) :
    ∃ c tail, stringifyValue gap indent v = c :: tail ∧ isWhitespace c = false ∧
      c ≠ ']' ∧ c ≠ '}' := by
  cases v with
  | null => exact ⟨'n', _, by rw [stringifyValue], rfl, by decide, by decide⟩
  | bool b =>
    cases b
    · exact ⟨'f', _, by rw [stringifyValue]; rfl, rfl, by decide, by decide⟩
    · exact ⟨'t', _, by rw [stringifyValue]; rfl, rfl, by decide, by decide⟩
  | num mant scale =>
    simp only [isPlainData, Bool.and_eq_true, decide_eq_true_eq] at hv
    obtain ⟨c, tail, hc, hcase⟩ := intToChars_head mant
    refine ⟨c, tail, by rw [stringifyValue, numberToChars, if_pos hv.1, hc], ?_⟩
    rcases hcase with h | h
    · rw [h]; exact ⟨rfl, by decide, by decide⟩
    · exact ⟨(isDigit_not_special c h).1, (isDigit_not_special c h).2.1,
        (isDigit_not_special c h).2.2.1⟩
  | str s => exact ⟨'"', _, by rw [stringifyValue, quote], rfl, by decide, by decide⟩
  | arr xs =>
    rw [stringifyValue]
    split
    · exact ⟨'[', _, rfl, rfl, by decide, by decide⟩
    · split
      · exact ⟨'[', _, rfl, rfl, by decide, by decide⟩
      · exact ⟨'[', _, rfl, rfl, by decide, by decide⟩
  | obj kvs =>
    rw [stringifyValue]
    split
    · exact ⟨'{', _, rfl, rfl, by decide, by decide⟩
    · split
      · exact ⟨'{', _, rfl, rfl, by decide, by decide⟩
      · exact ⟨'{', _, rfl, rfl, by decide, by decide⟩

theorem parseValue_null (fuel : Nat) (rest : List Char) :
    parseValue (fuel + 1) ('n' :: 'u' :: 'l' :: 'l' :: rest) = some (JSON.null, rest) := by
  rw [parseValue, skipWs_cons 'n' _ rfl]
  simp [expect]

theorem parseValue_true (fuel : Nat) (rest : List Char) :
    parseValue (fuel + 1) ('t' :: 'r' :: 'u' :: 'e' :: rest) = some (JSON.bool true, rest) := by
  rw [parseValue, skipWs_cons 't' _ rfl]
  simp [expect]

theorem parseValue_false (fuel : Nat) (rest : List Char) :
    parseValue (fuel + 1) ('f' :: 'a' :: 'l' :: 's' :: 'e' :: rest) =
      some (JSON.bool false, rest) := by
  rw [parseValue, skipWs_cons 'f' _ rfl]
  simp [expect]

theorem parseValue_number (fuel : Nat) (mant : Int) (rest : List Char)
    (hend : ∀ c ∈ rest.head?, JS.isDigit c = false ∧ c ≠ '.' ∧ c ≠ 'e' ∧ c ≠ 'E') :
    parseValue (fuel + 1) (JS.intToChars mant ++ rest) = some (JSON.num mant 0, rest) := by
  obtain ⟨c, tail, hc, hcase⟩ := intToChars_head mant
  have hfacts : isWhitespace c = false ∧ c ≠ '{' ∧ c ≠ '[' ∧ c ≠ '"' ∧ c ≠ 't' ∧ c ≠ 'f' ∧
      c ≠ 'n' := by
    rcases hcase with h | h
    · rw [h]; exact ⟨rfl, by decide, by decide, by decide, by decide, by decide, by decide⟩
    · have := isDigit_not_special c h
      exact ⟨this.1, this.2.2.2.1, this.2.2.2.2.1, this.2.2.2.2.2.1, this.2.2.2.2.2.2.1,
        this.2.2.2.2.2.2.2.1, this.2.2.2.2.2.2.2.2⟩
  have hnum := parseNumber_intToChars mant rest hend
  rw [hc, List.cons_append] at hnum ⊢
  rw [parseValue, skipWs_cons _ _ hfacts.1]
  simp only [if_neg hfacts.2.1, if_neg hfacts.2.2.1, if_neg hfacts.2.2.2.1,
    if_neg hfacts.2.2.2.2.1, if_neg hfacts.2.2.2.2.2.1, if_neg hfacts.2.2.2.2.2.2, hnum]

theorem parseValue_string (fuel : Nat) (s : String) (rest : List Char) :
    parseValue (fuel + 1) (quote s ++ rest) = some (JSON.str s, rest) := by
  obtain ⟨tail, htail, hparse⟩ := parseStringChars_quote s rest
  rw [htail, parseValue, skipWs_cons '"' _ rfl]
  simp [hparse]

end JSON

/-! ### Members and elements -/

namespace JSON

theorem lookup_eq_none (key : String) (kvs : List (String × JSON))
    (h : lookup key kvs = none) : ∀ kv ∈ kvs, kv.1 ≠ key := by
  induction kvs with
  | nil => intro kv hkv; simp at hkv
  | cons head tail ih =>
    obtain ⟨k, v⟩ := head
    rw [lookup] at h
    split at h
    · simp at h
    · rename_i hk
      intro kv hkv
      rw [List.mem_cons] at hkv
      rcases hkv with rfl | hkv
      · exact hk
      · exact ih h kv hkv

theorem setKey_of_lookup_none (key : String) (v : JSON) (kvs : List (String × JSON))
    (h : lookup key kvs = none) : setKey key v kvs = kvs ++ [(key, v)] := by
  induction kvs with
  | nil => rfl
  | cons head tail ih =>
    obtain ⟨k, w⟩ := head
    rw [lookup] at h
    split at h
    · simp at h
    · rename_i hk
      rw [setKey, if_neg hk, ih h]
      rfl

theorem lookup_append_singleton (key k : String) (v : JSON) (kvs : List (String × JSON))
    (h : lookup key kvs = none) (hk : k ≠ key) : lookup key (kvs ++ [(k, v)]) = none := by
  induction kvs with
  | nil => simp [lookup, hk]
  | cons head tail ih =>
    obtain ⟨k', w⟩ := head
    rw [lookup] at h
    split at h
    · simp at h
    · rename_i hk'
      rw [List.cons_append, lookup, if_neg hk', ih h]

theorem whitespace_props (c : Char) (h : isWhitespace c = true) :
    JS.isDigit c = false ∧ c ≠ '.' ∧ c ≠ 'e' ∧ c ≠ 'E' := by
  simp only [isWhitespace, Bool.or_eq_true, decide_eq_true_eq] at h
  rcases h with ((rfl | rfl) | rfl) | rfl <;> exact ⟨rfl, by decide, by decide, by decide⟩

/-- What follows a value in a serialisation ends a number literal. -/
theorem numberEnd_after (ws : List Char) (c : Char) (rest : List Char)
    (hws : ∀ d ∈ ws, isWhitespace d = true) (hc : c = ',' ∨ c = ']' ∨ c = '}') :
    ∀ d ∈ (ws ++ c :: rest).head?, JS.isDigit d = false ∧ d ≠ '.' ∧ d ≠ 'e' ∧ d ≠ 'E' := by
  intro d hd
  cases ws with
  | nil =>
    simp only [List.nil_append, List.head?_cons, Option.mem_def, Option.some.injEq] at hd
    subst hd
    rcases hc with rfl | rfl | rfl <;> exact ⟨rfl, by decide, by decide, by decide⟩
  | cons w ws =>
    simp only [List.cons_append, List.head?_cons, Option.mem_def, Option.some.injEq] at hd
    subst hd
    exact whitespace_props _ (hws _ (List.mem_cons_self _ _))

theorem parseValue_array (fuel : Nat) (ws elems : List Char) (d : Char) (tail : List Char)
    (xs : List JSON) (rest : List Char) (hws : ∀ c ∈ ws, isWhitespace c = true)
    (hd : isWhitespace d = false) (hd' : d ≠ ']')
    (h : parseElements fuel (d :: tail) = some (xs, rest)) (helems : elems = d :: tail) :
    parseValue (fuel + 1) ('[' :: (ws ++ elems)) = some (JSON.arr xs, rest) := by
  rw [parseValue, skipWs_cons '[' _ rfl]
  simp only [Char.reduceEq, if_false, if_true, ↓reduceIte]
  rw [skipWs_append ws _ hws, helems, skipWs_cons d _ hd]
  simp only [if_neg hd', h, Option.map_some']

theorem parseValue_object (fuel : Nat) (ws members : List Char) (d : Char) (tail : List Char)
    (kvs : List (String × JSON)) (rest : List Char) (hws : ∀ c ∈ ws, isWhitespace c = true)
    (hd : isWhitespace d = false) (hd' : d ≠ '}')
    (h : parseMembers fuel (d :: tail) [] = some (kvs, rest)) (hmembers : members = d :: tail) :
    parseValue (fuel + 1) ('{' :: (ws ++ members)) = some (JSON.obj kvs, rest) := by
  rw [parseValue, skipWs_cons '{' _ rfl]
  simp only [if_true, ↓reduceIte]
  rw [skipWs_append ws _ hws, hmembers, skipWs_cons d _ hd]
  simp only [if_neg hd', h, Option.map_some']

theorem parseValue_empty_array (fuel : Nat) (rest : List Char) :
    parseValue (fuel + 1) ('[' :: ']' :: rest) = some (JSON.arr [], rest) := by
  rw [parseValue, skipWs_cons '[' _ rfl]
  simp only [Char.reduceEq, if_false, if_true, ↓reduceIte]
  rw [skipWs_cons ']' _ rfl]
  simp only [if_true, ↓reduceIte]

theorem parseValue_empty_object (fuel : Nat) (rest : List Char) :
    parseValue (fuel + 1) ('{' :: '}' :: rest) = some (JSON.obj [], rest) := by
  rw [parseValue, skipWs_cons '{' _ rfl]
  simp only [if_true, ↓reduceIte]
  rw [skipWs_cons '}' _ rfl]
  simp only [if_true, ↓reduceIte]

end JSON

namespace JSON

theorem parseElements_last (fuel : Nat) (x : JSON) (cs ws rest : List Char)
    (hws : ∀ c ∈ ws, isWhitespace c = true)
    (hv : parseValue fuel cs = some (x, ws ++ ']' :: rest)) :
    parseElements (fuel + 1) cs = some ([x], rest) := by
  rw [parseElements, hv]
  simp only
  rw [skipWs_append ws _ hws, skipWs_cons ']' _ rfl]
  simp only [Char.reduceEq, if_false, if_true, ↓reduceIte]

theorem parseElements_more (fuel : Nat) (x : JSON) (xs : List JSON) (cs tail rest : List Char)
    (hv : parseValue fuel cs = some (x, ',' :: tail))
    (h : parseElements fuel tail = some (xs, rest)) :
    parseElements (fuel + 1) cs = some (x :: xs, rest) := by
  rw [parseElements, hv]
  simp only
  rw [skipWs_cons ',' _ rfl]
  simp only [if_true, ↓reduceIte, h, Option.map_some']

theorem parseMembers_last (fuel : Nat) (k : String) (v : JSON) (acc : List (String × JSON))
    (r2 ws rest : List Char) (hws : ∀ c ∈ ws, isWhitespace c = true)
    (hv : parseValue fuel r2 = some (v, ws ++ '}' :: rest)) :
    parseMembers (fuel + 1) (quote k ++ ':' :: r2) acc = some (setKey k v acc, rest) := by
  obtain ⟨tail, htail, hparse⟩ := parseStringChars_quote k (':' :: r2)
  rw [htail, parseMembers, skipWs_cons '"' _ rfl]
  simp only [if_true, ↓reduceIte, hparse]
  rw [skipWs_cons ':' _ rfl]
  simp only [if_true, ↓reduceIte, hv]
  rw [skipWs_append ws _ hws, skipWs_cons '}' _ rfl]
  simp only [Char.reduceEq, if_false, if_true, ↓reduceIte]

theorem parseMembers_more (fuel : Nat) (k : String) (v : JSON) (acc : List (String × JSON))
    (r2 tail : List Char) (hv : parseValue fuel r2 = some (v, ',' :: tail)) :
    parseMembers (fuel + 1) (quote k ++ ':' :: r2) acc =
      parseMembers fuel tail (setKey k v acc) := by
  obtain ⟨tail', htail, hparse⟩ := parseStringChars_quote k (':' :: r2)
  rw [htail, parseMembers, skipWs_cons '"' _ rfl]
  simp only [if_true, ↓reduceIte, hparse]
  rw [skipWs_cons ':' _ rfl]
  simp only [if_true, ↓reduceIte, hv]
  rw [skipWs_cons ',' _ rfl]
  simp only [if_true, ↓reduceIte]

end JSON

namespace JSON

mutual
/-- A serialised plain value reads back as the value, with fuel for its characters. -/
theorem parseValue_stringifyValue (gap : List Char) (hgap : ∀ c ∈ gap, isWhitespace c = true) :
    ∀ (v : JSON), isPlainData v = true → ∀ (indent rest : List Char) (fuel : Nat),
      (∀ c ∈ indent, isWhitespace c = true) →
      (∀ c ∈ rest.head?, JS.isDigit c = false ∧ c ≠ '.' ∧ c ≠ 'e' ∧ c ≠ 'E') →
      (stringifyValue gap indent v).length ≤ fuel →
      parseValue fuel (stringifyValue gap indent v ++ rest) = some (v, rest)
  | .null, _, indent, rest, fuel, _, _, hfuel => by
    rw [stringifyValue] at hfuel ⊢
    obtain ⟨f, rfl⟩ : ∃ f, fuel = f + 1 := ⟨fuel - 1, by simp at hfuel; omega⟩
    exact parseValue_null f rest
  | .bool b, _, indent, rest, fuel, _, _, hfuel => by
    rw [stringifyValue] at hfuel ⊢
    cases b
    · obtain ⟨f, rfl⟩ : ∃ f, fuel = f + 1 := ⟨fuel - 1, by simp at hfuel; omega⟩
      exact parseValue_false f rest
    · obtain ⟨f, rfl⟩ : ∃ f, fuel = f + 1 := ⟨fuel - 1, by simp at hfuel; omega⟩
      exact parseValue_true f rest
  | .num mant scale, hv, indent, rest, fuel, _, hend, hfuel => by
    simp only [isPlainData, Bool.and_eq_true, decide_eq_true_eq] at hv
    obtain ⟨hscale, -⟩ := hv
    subst hscale
    rw [stringifyValue, numberToChars, if_pos rfl] at hfuel ⊢
    obtain ⟨c, tail, hc, -⟩ := intToChars_head mant
    obtain ⟨f, rfl⟩ : ∃ f, fuel = f + 1 := ⟨fuel - 1, by rw [hc] at hfuel; simp at hfuel; omega⟩
    exact parseValue_number f mant rest hend
  | .str s, _, indent, rest, fuel, _, _, hfuel => by
    rw [stringifyValue] at hfuel ⊢
    obtain ⟨f, rfl⟩ : ∃ f, fuel = f + 1 := ⟨fuel - 1, by simp [quote] at hfuel; omega⟩
    exact parseValue_string f s rest
  | .arr xs, hv, indent, rest, fuel, hindent, _, hfuel => by
    rw [isPlainData] at hv
    rw [stringifyValue] at hfuel ⊢
    cases xs with
    | nil =>
      simp only [List.isEmpty_nil, if_true] at hfuel ⊢
      obtain ⟨f, rfl⟩ : ∃ f, fuel = f + 1 := ⟨fuel - 1, by simp at hfuel; omega⟩
      exact parseValue_empty_array f rest
    | cons x xs =>
      simp only [List.isEmpty_cons, Bool.false_eq_true, if_false] at hfuel ⊢
      have hx : isPlainData x = true := by
        rw [elementsPlain, Bool.and_eq_true] at hv; exact hv.1
      have hindent' : ∀ c ∈ indent ++ gap, isWhitespace c = true := by
        intro c hc
        rw [List.mem_append] at hc
        exact hc.elim (hindent c) (hgap c)
      obtain ⟨d, tail, hhead, hdws, hd1, -⟩ := stringifyValue_head gap (indent ++ gap) x hx
      by_cases hg : gap.isEmpty = true
      · simp only [hg, if_true] at hfuel ⊢
        obtain ⟨f, rfl⟩ : ∃ f, fuel = f + 1 := ⟨fuel - 1, by simp at hfuel; omega⟩
        have hel := parseElements_stringifyElements gap hgap (x :: xs) (List.cons_ne_nil _ _) hv
          (indent ++ gap) [] rest f hindent' (by simp)
          (by simp only [List.length_cons, List.length_append] at hfuel; omega)
        have hshape : stringifyElements gap (indent ++ gap) (x :: xs) ++ ([] ++ ']' :: rest) =
            d :: (tail ++ (if xs.isEmpty then []
              else ',' :: ((if gap.isEmpty then [] else '\n' :: (indent ++ gap)) ++
                stringifyElements gap (indent ++ gap) xs)) ++ ']' :: rest) := by
          rw [stringifyElements, hhead]
          simp
        rw [hshape] at hel
        have := parseValue_array f [] _ d _ (x :: xs) rest (by simp) hdws hd1 hel hshape
        simpa using this
      · simp only [hg, Bool.false_eq_true, if_false] at hfuel ⊢
        obtain ⟨f, rfl⟩ : ∃ f, fuel = f + 1 := ⟨fuel - 1, by simp at hfuel; omega⟩
        have hws2 : ∀ c ∈ '\n' :: indent, isWhitespace c = true := by
          intro c hc
          rw [List.mem_cons] at hc
          rcases hc with rfl | hc
          · rfl
          · exact hindent c hc
        have hel := parseElements_stringifyElements gap hgap (x :: xs) (List.cons_ne_nil _ _) hv
          (indent ++ gap) ('\n' :: indent) rest f hindent' hws2
          (by simp only [List.length_cons, List.length_append] at hfuel; omega)
        have hshape : stringifyElements gap (indent ++ gap) (x :: xs) ++
            ('\n' :: indent ++ ']' :: rest) =
            d :: (tail ++ (if xs.isEmpty then []
              else ',' :: ((if gap.isEmpty then [] else '\n' :: (indent ++ gap)) ++
                stringifyElements gap (indent ++ gap) xs)) ++ ('\n' :: indent ++ ']' :: rest)) := by
          rw [stringifyElements, hhead]
          simp
        rw [hshape] at hel
        have hws1 : ∀ c ∈ '\n' :: (indent ++ gap), isWhitespace c = true := by
          intro c hc
          rw [List.mem_cons] at hc
          rcases hc with rfl | hc
          · rfl
          · exact hindent' c hc
        have := parseValue_array f ('\n' :: (indent ++ gap)) _ d _ (x :: xs) rest hws1 hdws hd1
          hel hshape
        simpa using this
  | .obj kvs, hv, indent, rest, fuel, hindent, _, hfuel => by
    rw [isPlainData] at hv
    rw [stringifyValue] at hfuel ⊢
    cases kvs with
    | nil =>
      simp only [List.isEmpty_nil, if_true] at hfuel ⊢
      obtain ⟨f, rfl⟩ : ∃ f, fuel = f + 1 := ⟨fuel - 1, by simp at hfuel; omega⟩
      exact parseValue_empty_object f rest
    | cons kv kvs =>
      obtain ⟨k, v⟩ := kv
      simp only [List.isEmpty_cons, Bool.false_eq_true, if_false] at hfuel ⊢
      have hindent' : ∀ c ∈ indent ++ gap, isWhitespace c = true := by
        intro c hc
        rw [List.mem_append] at hc
        exact hc.elim (hindent c) (hgap c)
      by_cases hg : gap.isEmpty = true
      · simp only [hg, if_true] at hfuel ⊢
        obtain ⟨f, rfl⟩ : ∃ f, fuel = f + 1 := ⟨fuel - 1, by simp at hfuel; omega⟩
        have hmem := parseMembers_stringifyMembers gap hgap ((k, v) :: kvs)
          (List.cons_ne_nil _ _) hv (indent ++ gap) [] rest f [] hindent' (by simp)
          (by intro kv _; rfl)
          (by simp only [List.length_cons, List.length_append] at hfuel; omega)
        have hshape : stringifyMembers gap (indent ++ gap) ((k, v) :: kvs) ++
            ([] ++ '}' :: rest) =
            '"' :: (escapeChars k.data ++ ['"'] ++ (':' :: ((if gap.isEmpty then [] else [' ']) ++
              (stringifyValue gap (indent ++ gap) v ++ (if kvs.isEmpty then []
                else ',' :: ((if gap.isEmpty then [] else '\n' :: (indent ++ gap)) ++
                  stringifyMembers gap (indent ++ gap) kvs))))) ++ '}' :: rest) := by
          rw [stringifyMembers, quote]
          simp
        rw [hshape] at hmem
        have := parseValue_object f [] _ '"' _ ((k, v) :: kvs) rest (by simp) rfl (by decide)
          hmem hshape
        simpa using this
      · simp only [hg, Bool.false_eq_true, if_false] at hfuel ⊢
        obtain ⟨f, rfl⟩ : ∃ f, fuel = f + 1 := ⟨fuel - 1, by simp at hfuel; omega⟩
        have hws2 : ∀ c ∈ '\n' :: indent, isWhitespace c = true := by
          intro c hc
          rw [List.mem_cons] at hc
          rcases hc with rfl | hc
          · rfl
          · exact hindent c hc
        have hmem := parseMembers_stringifyMembers gap hgap ((k, v) :: kvs)
          (List.cons_ne_nil _ _) hv (indent ++ gap) ('\n' :: indent) rest f [] hindent' hws2
          (by intro kv _; rfl)
          (by simp only [List.length_cons, List.length_append] at hfuel; omega)
        have hshape : stringifyMembers gap (indent ++ gap) ((k, v) :: kvs) ++
            ('\n' :: indent ++ '}' :: rest) =
            '"' :: (escapeChars k.data ++ ['"'] ++ (':' :: ((if gap.isEmpty then [] else [' ']) ++
              (stringifyValue gap (indent ++ gap) v ++ (if kvs.isEmpty then []
                else ',' :: ((if gap.isEmpty then [] else '\n' :: (indent ++ gap)) ++
                  stringifyMembers gap (indent ++ gap) kvs))))) ++
                ('\n' :: indent ++ '}' :: rest)) := by
          rw [stringifyMembers, quote]
          simp
        rw [hshape] at hmem
        have hws1 : ∀ c ∈ '\n' :: (indent ++ gap), isWhitespace c = true := by
          intro c hc
          rw [List.mem_cons] at hc
          rcases hc with rfl | hc
          · rfl
          · exact hindent' c hc
        have := parseValue_object f ('\n' :: (indent ++ gap)) _ '"' _ ((k, v) :: kvs) rest hws1
          rfl (by decide) hmem hshape
        simpa using this
/-- The serialised elements of a non-empty array of plain values, followed by whitespace
and the closing bracket, read back as the elements. -/
theorem parseElements_stringifyElements (gap : List Char)
    (hgap : ∀ c ∈ gap, isWhitespace c = true) :
    ∀ (xs : List JSON), xs ≠ [] → elementsPlain xs = true →
      ∀ (indent ws rest : List Char) (fuel : Nat),
      (∀ c ∈ indent, isWhitespace c = true) → (∀ c ∈ ws, isWhitespace c = true) →
      (stringifyElements gap indent xs).length + 1 ≤ fuel →
      parseElements fuel (stringifyElements gap indent xs ++ (ws ++ ']' :: rest)) =
        some (xs, rest)
  | [], hne, _, _, _, _, _, _, _, _ => absurd rfl hne
  | x :: xs, _, hv, indent, ws, rest, fuel, hindent, hws, hfuel => by
    rw [elementsPlain, Bool.and_eq_true] at hv
    rw [stringifyElements] at hfuel ⊢
    obtain ⟨f, rfl⟩ : ∃ f, fuel = f + 1 := ⟨fuel - 1, by omega⟩
    cases xs with
    | nil =>
      simp only [List.isEmpty_nil, if_true, List.append_nil] at hfuel ⊢
      exact parseElements_last f x _ ws rest hws
        (parseValue_stringifyValue gap hgap x hv.1 indent _ f hindent
          (numberEnd_after ws ']' rest hws (Or.inr (Or.inl rfl))) (by omega))
    | cons y ys =>
      simp only [List.isEmpty_cons, Bool.false_eq_true, if_false, List.length_append,
        List.length_cons] at hfuel ⊢
      rw [List.append_assoc, List.cons_append, List.append_assoc]
      have hsep : ∀ c ∈ (if gap.isEmpty then [] else '\n' :: indent),
          isWhitespace c = true := by
        intro c hc
        split at hc
        · simp at hc
        · rw [List.mem_cons] at hc
          rcases hc with rfl | hc
          · rfl
          · exact hindent c hc
      have hvalue := parseValue_stringifyValue gap hgap x hv.1 indent
        (',' :: ((if gap.isEmpty then [] else '\n' :: indent) ++
          (stringifyElements gap indent (y :: ys) ++ (ws ++ ']' :: rest)))) f hindent
        (numberEnd_after [] ',' _ (by simp) (Or.inl rfl)) (by omega)
      refine parseElements_more f x (y :: ys) _ _ rest hvalue ?_
      rw [parseElements_skip f _ _ hsep]
      exact parseElements_stringifyElements gap hgap (y :: ys) (List.cons_ne_nil _ _) hv.2
        indent ws rest f hindent hws (by omega)
/-- The serialised members of a non-empty object of plain values with different keys,
followed by whitespace and the closing brace, read back as the members, after the members
read before when their keys are different too. -/
theorem parseMembers_stringifyMembers (gap : List Char)
    (hgap : ∀ c ∈ gap, isWhitespace c = true) :
    ∀ (kvs : List (String × JSON)), kvs ≠ [] → membersPlain kvs = true →
      ∀ (indent ws rest : List Char) (fuel : Nat) (acc : List (String × JSON)),
      (∀ c ∈ indent, isWhitespace c = true) → (∀ c ∈ ws, isWhitespace c = true) →
      (∀ kv ∈ kvs, lookup kv.1 acc = none) →
      (stringifyMembers gap indent kvs).length + 1 ≤ fuel →
      parseMembers fuel (stringifyMembers gap indent kvs ++ (ws ++ '}' :: rest)) acc =
        some (acc ++ kvs, rest)
  | [], hne, _, _, _, _, _, _, _, _, _, _ => absurd rfl hne
  | (k, v) :: kvs, _, hv, indent, ws, rest, fuel, acc, hindent, hws, hacc, hfuel => by
    rw [membersPlain, Bool.and_eq_true, Bool.and_eq_true, Option.isNone_iff_eq_none] at hv
    obtain ⟨⟨hvplain, hkey⟩, hrest⟩ := hv
    rw [stringifyMembers] at hfuel ⊢
    obtain ⟨f, rfl⟩ : ∃ f, fuel = f + 1 := ⟨fuel - 1, by omega⟩
    have hset : setKey k v acc = acc ++ [(k, v)] :=
      setKey_of_lookup_none k v acc (hacc (k, v) (List.mem_cons_self _ _))
    have hcolon : ∀ c ∈ (if gap.isEmpty then [] else [' ']), isWhitespace c = true := by
      intro c hc
      split at hc
      · simp at hc
      · rw [List.mem_singleton] at hc
        rw [hc]; rfl
    cases kvs with
    | nil =>
      simp only [List.isEmpty_nil, if_true, List.append_nil, List.length_append,
        List.length_cons] at hfuel ⊢
      rw [List.append_assoc, List.cons_append, List.append_assoc]
      have hvalue := parseValue_stringifyValue gap hgap v hvplain indent (ws ++ '}' :: rest) f
        hindent (numberEnd_after ws '}' rest hws (Or.inr (Or.inr rfl))) (by omega)
      rw [← parseValue_skip f _ _ hcolon] at hvalue
      rw [parseMembers_last f k v acc _ ws rest hws hvalue, hset]
    | cons kv' kvs' =>
      simp only [List.isEmpty_cons, Bool.false_eq_true, if_false, List.length_append,
        List.length_cons] at hfuel ⊢
      rw [List.append_assoc, List.cons_append, List.append_assoc, List.append_assoc,
        List.cons_append, List.append_assoc]
      have hsep : ∀ c ∈ (if gap.isEmpty then [] else '\n' :: indent),
          isWhitespace c = true := by
        intro c hc
        split at hc
        · simp at hc
        · rw [List.mem_cons] at hc
          rcases hc with rfl | hc
          · rfl
          · exact hindent c hc
      have hvalue := parseValue_stringifyValue gap hgap v hvplain indent
        (',' :: ((if gap.isEmpty then [] else '\n' :: indent) ++
          (stringifyMembers gap indent (kv' :: kvs') ++ (ws ++ '}' :: rest)))) f hindent
        (numberEnd_after [] ',' _ (by simp) (Or.inl rfl)) (by omega)
      rw [← parseValue_skip f _ _ hcolon] at hvalue
      rw [parseMembers_more f k v acc _ _ hvalue, hset, parseMembers_skip f _ _ _ hsep,
        parseMembers_stringifyMembers gap hgap (kv' :: kvs') (List.cons_ne_nil _ _) hrest
          indent ws rest f (acc ++ [(k, v)]) hindent hws ?_ (by omega)]
      · rw [List.append_assoc, List.singleton_append]
      · intro kv hkv
        exact lookup_append_singleton kv.1 k v acc
          (hacc kv (List.mem_cons_of_mem _ hkv))
          (fun h => lookup_eq_none k (kv' :: kvs') hkey kv hkv h.symm)
end

end JSON

namespace JSON

/-- `JSON.parse` gives back the plain value `JSON.stringify` serialised, whatever the
number of spaces of indentation. -/
theorem parse_stringify (v : JSON) (space : Nat) (hv : isPlainData v = true) :
    parse (stringify v space) = some v := by
  have hgap : ∀ c ∈ List.replicate (min space 10) ' ', isWhitespace c = true := by
    intro c hc
    rw [List.eq_of_mem_replicate hc]
    rfl
  have h := parseValue_stringifyValue (List.replicate (min space 10) ' ') hgap v hv [] []
    ((stringifyValue (List.replicate (min space 10) ' ') [] v).length + 1)
    (by simp) (by simp) (by omega)
  rw [List.append_nil] at h
  unfold parse stringify
  simp only [String.length, h]
  rfl

theorem lookup_setKey (key k : String) (v : JSON) (kvs : List (String × JSON)) :
    lookup key (setKey k v kvs) = if k = key then some v else lookup key kvs := by
  induction kvs with
  | nil => simp [setKey, lookup]
  | cons head tail ih =>
    obtain ⟨k', w⟩ := head
    rw [setKey]
    by_cases hk : k' = k
    · rw [if_pos hk, lookup, lookup]
      by_cases hkey : k = key
      · rw [if_pos (hk.trans hkey), if_pos hkey]
      · rw [if_neg (fun h => hkey (hk.symm.trans h)), if_neg hkey, if_neg
          (fun h => hkey (hk.symm.trans h))]
    · rw [if_neg hk, lookup, lookup, ih]
      by_cases hk' : k' = key
      · rw [if_pos hk', if_pos hk', if_neg (fun h => hk (hk'.trans h.symm))]
      · rw [if_neg hk', if_neg hk']

theorem map_fst_setKey (k : String) (v w : JSON) (kvs : List (String × JSON))
    (h : lookup k kvs = some w) : (setKey k v kvs).map Prod.fst = kvs.map Prod.fst := by
  induction kvs with
  | nil => simp [lookup] at h
  | cons head tail ih =>
    obtain ⟨k', w'⟩ := head
    rw [setKey]
    by_cases hk : k' = k
    · rw [if_pos hk]
      rfl
    · rw [lookup, if_neg hk] at h
      rw [if_neg hk, List.map_cons, List.map_cons, ih h]

theorem membersPlain_setKey (k : String) (v : JSON) (kvs : List (String × JSON))
    (hv : isPlainData v = true) (h : membersPlain kvs = true) :
    membersPlain (setKey k v kvs) = true := by
  induction kvs with
  | nil => simp [setKey, membersPlain, hv, lookup]
  | cons head tail ih =>
    obtain ⟨k', w⟩ := head
    rw [membersPlain, Bool.and_eq_true, Bool.and_eq_true, Option.isNone_iff_eq_none] at h
    obtain ⟨⟨hw, hkey⟩, htail⟩ := h
    rw [setKey]
    by_cases hk : k' = k
    · rw [if_pos hk, membersPlain, hv, htail]
      simp [hkey]
    · rw [if_neg hk, membersPlain, hw, ih htail, lookup_setKey, if_neg (fun h => hk h.symm),
        hkey]
      rfl

end JSON

/-! ## The committed content -/

/-- C6. For an upgraded manifest that is plain data and has a valid version, the text
`updatePackageFile` passes to the contents update is the serialisation, with two spaces of
indentation, of the whole manifest with its version bumped, and `JSON.parse` of that text
is an object with the same keys in the same order that holds the bumped version under
'version' and the value of the manifest under every other key. -/
theorem committed_content (self : Santari) (commitMessage : String)
    (kvs : List (String × JSON)) (answer : Except JSError JSON) (version : String)
    (sv : semver.SemVer)
    (hplain : JSON.isPlainData (.obj kvs) = true)
    (hversion : JSON.lookup "version" kvs = some (.str version))
    (hvalid : semver.parse version = some sv)
    (hs : self.packageSHA ≠ "") (hp : self.packagePath ≠ "") :
    ∃ text committed,
      (self.updatePackageFile commitMessage (.obj kvs) answer).effects =
        [.remote self.repoDetails (.updateContents self.packagePath commitMessage text
          self.packageSHA self.depBranchName)] ∧
      text = JSON.stringify
        (.obj (JSON.setKey "version" (.str (sv.inc .minor).format) kvs)) 2 ∧
      JSON.parse text = some (.obj committed) ∧
      JSON.lookup "version" committed = some (.str (sv.inc .minor).format) ∧
      (∀ key, key ≠ "version" → JSON.lookup key committed = JSON.lookup key kvs) ∧
      committed.map Prod.fst = kvs.map Prod.fst := by
  have hinc : semver.inc (JSON.lookup "version" kvs) .minor = .str (sv.inc .minor).format := by
    rw [hversion]
    simp only [semver.inc, hvalid]
  have hbump : Santari.bumpVersion (.obj kvs) =
      some (.obj (JSON.setKey "version" (.str (sv.inc .minor).format) kvs)) := by
    simp only [Santari.bumpVersion, hinc]
  have hs' : self.packageSHA.isEmpty = false := by
    rw [Bool.eq_false_iff, Ne, String.isEmpty_iff]; exact hs
  have hp' : self.packagePath.isEmpty = false := by
    rw [Bool.eq_false_iff, Ne, String.isEmpty_iff]; exact hp
  have hplain' : JSON.isPlainData
      (.obj (JSON.setKey "version" (.str (sv.inc .minor).format) kvs)) = true := by
    rw [JSON.isPlainData] at hplain ⊢
    exact JSON.membersPlain_setKey _ _ kvs (by simp [JSON.isPlainData]) hplain
  refine ⟨JSON.stringify (.obj (JSON.setKey "version" (.str (sv.inc .minor).format) kvs)) 2,
    JSON.setKey "version" (.str (sv.inc .minor).format) kvs, ?_, rfl,
    JSON.parse_stringify _ 2 hplain', ?_, ?_, JSON.map_fst_setKey _ _ _ kvs hversion⟩
  · unfold Santari.updatePackageFile
    cases answer <;> simp [hs', hp', hbump]
  · rw [JSON.lookup_setKey, if_pos rfl]
  · intro key hkey
    rw [JSON.lookup_setKey, if_neg (fun h => hkey h.symm)]

/-- The committed content at the upgraded manifest of the second scenario: the text reads
back with version `2.5.0` and the dependency `a` at `^2.0.0`. -/
theorem committed_content_witness :
    (∃ text committed,
      (readyInstance.updatePackageFile "Update dependencies" upgradedB (.ok .null)).effects =
        [.remote "owner/repo" (.updateContents "package.json" "Update dependencies" text
          "3d21ec53" "update-deps-santari-42")] ∧
      text = JSON.stringify (.obj (JSON.setKey "version"
        (.str (semver.SemVer.inc ⟨2, 4, 9, [], []⟩ .minor).format)
        [("version", .str "2.4.9"), ("dependencies", .obj [("a", .str "^2.0.0")])])) 2 ∧
      JSON.parse text = some (.obj committed) ∧
      JSON.lookup "version" committed =
        some (.str (semver.SemVer.inc ⟨2, 4, 9, [], []⟩ .minor).format) ∧
      (∀ key, key ≠ "version" → JSON.lookup key committed =
        JSON.lookup key
          [("version", .str "2.4.9"), ("dependencies", .obj [("a", .str "^2.0.0")])]) ∧
      committed.map Prod.fst =
        [("version", JSON.str "2.4.9"),
          ("dependencies", JSON.obj [("a", JSON.str "^2.0.0")])].map Prod.fst) ∧
    JSON.stringify (.obj [("version", .str "2.5.0"),
        ("dependencies", .obj [("a", .str "^2.0.0")])]) 2 =
      "\x7b\n  \"version\": \"2.5.0\",\n  \"dependencies\": \x7b\n    \"a\": \"^2.0.0\"\n  \x7d\n\x7d" :=
  ⟨committed_content readyInstance "Update dependencies"
    [("version", .str "2.4.9"), ("dependencies", .obj [("a", .str "^2.0.0")])] (.ok .null)
    "2.4.9" ⟨2, 4, 9, [], []⟩ (by rfl) rfl (by rfl) (by decide) (by decide), by decide⟩

/-! ## The fuel of `JSON.parse` -/

namespace JSON

theorem skipWs_length (cs : List Char) : (skipWs cs).length ≤ cs.length := by
  induction cs with
  | nil => exact Nat.le_refl _
  | cons c cs ih =>
    rw [skipWs]
    split
    · exact Nat.le_succ_of_le ih
    · exact Nat.le_refl _

theorem parseStringUnits_length (n : Nat) : ∀ (cs : List Char) (units : List Nat)
    (rest : List Char), cs.length ≤ n → parseStringUnits cs = some (units, rest) →
    rest.length < cs.length := by
  induction n with
  | zero =>
    intro cs units rest hlen h
    have : cs = [] := List.length_eq_zero.mp (Nat.le_zero.mp hlen)
    subst this
    rw [parseStringUnits.eq_def] at h
    simp at h
  | succ n ih =>
    intro cs units rest hlen h
    have step : ∀ (tail : List Char) (x : Nat), tail.length ≤ n →
        (parseStringUnits tail).map (fun p => (x :: p.1, p.2)) = some (units, rest) →
        rest.length < tail.length := by
      intro tail x htail hmap
      rw [Option.map_eq_some'] at hmap
      obtain ⟨⟨u, r⟩, hrec, hp⟩ := hmap
      simp only [Option.some.injEq, Prod.mk.injEq] at hp
      rw [← hp.2]
      exact ih tail u r htail hrec
    cases cs with
    | nil =>
      rw [parseStringUnits.eq_def] at h
      simp at h
    | cons c cs =>
      simp only [List.length_cons] at hlen ⊢
      rw [parseStringUnits.eq_def] at h
      dsimp only at h
      by_cases hq : c = '"'
      · rw [if_pos hq] at h
        simp only [Option.some.injEq, Prod.mk.injEq] at h
        rw [← h.2]
        exact Nat.lt_succ_self _
      rw [if_neg hq] at h
      by_cases hb : c = '\\'
      · rw [if_pos hb] at h
        cases cs with
        | nil => simp at h
        | cons e r =>
          simp only [List.length_cons] at hlen ⊢
          dsimp only at h
          by_cases h1 : e = '"'
          · rw [if_pos h1] at h
            have := step _ _ (by omega) h
            omega
          rw [if_neg h1] at h
          by_cases h2 : e = '\\'
          · rw [if_pos h2] at h
            have := step _ _ (by omega) h
            omega
          rw [if_neg h2] at h
          by_cases h3 : e = '/'
          · rw [if_pos h3] at h
            have := step _ _ (by omega) h
            omega
          rw [if_neg h3] at h
          by_cases h4 : e = 'b'
          · rw [if_pos h4] at h
            have := step _ _ (by omega) h
            omega
          rw [if_neg h4] at h
          by_cases h5 : e = 'f'
          · rw [if_pos h5] at h
            have := step _ _ (by omega) h
            omega
          rw [if_neg h5] at h
          by_cases h6 : e = 'n'
          · rw [if_pos h6] at h
            have := step _ _ (by omega) h
            omega
          rw [if_neg h6] at h
          by_cases h7 : e = 'r'
          · rw [if_pos h7] at h
            have := step _ _ (by omega) h
            omega
          rw [if_neg h7] at h
          by_cases h8 : e = 't'
          · rw [if_pos h8] at h
            have := step _ _ (by omega) h
            omega
          rw [if_neg h8] at h
          by_cases h9 : e = 'u'
          · rw [if_pos h9] at h
            match r, hlen, h with
            | a :: b :: c' :: d :: r1, hlen, h =>
              simp only [List.length_cons] at hlen ⊢
              dsimp only at h
              cases hhex : hex4Val a b c' d with
              | none => rw [hhex] at h; simp at h
              | some m =>
                rw [hhex] at h
                have := step _ _ (by omega) h
                omega
            | [], _, h => simp at h
            | [_], _, h => simp at h
            | [_, _], _, h => simp at h
            | [_, _, _], _, h => simp at h
          · rw [if_neg h9] at h
            simp at h
      rw [if_neg hb] at h
      by_cases hctl : c.toNat < 32
      · rw [if_pos hctl] at h
        simp at h
      · rw [if_neg hctl] at h
        have := step _ _ (by omega) h
        omega

end JSON

namespace JSON

theorem takeDigits_length (cs : List Char) :
    (JS.takeDigits cs).1.length + (JS.takeDigits cs).2.length = cs.length := by
  induction cs with
  | nil => rfl
  | cons c cs ih =>
    rw [JS.takeDigits]
    split
    · simp only [List.length_cons]
      omega
    · simp

theorem parseFraction_length (cs fs rest : List Char)
    (h : parseFraction cs = some (fs, rest)) : rest.length ≤ cs.length := by
  unfold parseFraction at h
  cases cs with
  | nil =>
    simp only [Option.some.injEq, Prod.mk.injEq] at h
    rw [← h.2]
  | cons c r =>
    simp only at h
    split at h
    · split at h
      · simp at h
      · simp only [Option.some.injEq] at h
        have := takeDigits_length r
        rw [h] at this
        simp only [List.length_cons] at this ⊢
        omega
    · simp only [Option.some.injEq, Prod.mk.injEq] at h
      rw [← h.2]

theorem parseExponent_length (cs : List Char) (x : Int) (rest : List Char)
    (h : parseExponent cs = some (x, rest)) : rest.length ≤ cs.length := by
  unfold parseExponent at h
  cases cs with
  | nil =>
    simp only [Option.some.injEq, Prod.mk.injEq] at h
    rw [← h.2]
  | cons c r =>
    simp only at h
    split at h
    · cases r with
      | nil => simp at h
      | cons s r' =>
        simp only at h
        have h1 := takeDigits_length r'
        have h2 := takeDigits_length (s :: r')
        split at h
        · split at h
          · simp at h
          · simp only [Option.some.injEq, Prod.mk.injEq] at h
            rw [← h.2]
            simp only [List.length_cons]
            omega
        · split at h
          · split at h
            · simp at h
            · simp only [Option.some.injEq, Prod.mk.injEq] at h
              rw [← h.2]
              simp only [List.length_cons]
              omega
          · split at h
            · simp at h
            · simp only [Option.some.injEq, Prod.mk.injEq] at h
              rw [← h.2]
              simp only [List.length_cons] at h2 ⊢
              omega
    · simp only [Option.some.injEq, Prod.mk.injEq] at h
      rw [← h.2]

theorem parseUnsigned_length (cs : List Char) (p : Nat × Nat) (rest : List Char)
    (h : parseUnsigned cs = some (p, rest)) : rest.length < cs.length := by
  unfold parseUnsigned at h
  have hd := takeDigits_length cs
  split at h
  · simp at h
  · rename_i hne
    split at h
    · simp at h
    · cases hf : parseFraction (JS.takeDigits cs).2 with
      | none => rw [hf] at h; simp at h
      | some pf =>
        obtain ⟨fs, r⟩ := pf
        rw [hf] at h
        simp only at h
        cases he : parseExponent r with
        | none => rw [he] at h; simp at h
        | some pe =>
          obtain ⟨x, r'⟩ := pe
          rw [he] at h
          simp only [Option.some.injEq, Prod.mk.injEq] at h
          rw [← h.2]
          have h1 := parseFraction_length _ _ _ hf
          have h2 := parseExponent_length _ _ _ he
          have h3 : 0 < (JS.takeDigits cs).1.length := by
            rw [List.length_pos]
            intro hnil
            rw [hnil] at hne
            exact hne rfl
          omega

theorem parseNumber_length (cs : List Char) (v : JSON) (rest : List Char)
    (h : parseNumber cs = some (v, rest)) : rest.length < cs.length := by
  unfold parseNumber at h
  cases cs with
  | nil => simp at h
  | cons c r =>
    simp only at h
    split at h
    · rw [Option.map_eq_some'] at h
      obtain ⟨⟨p, r'⟩, hu, hp⟩ := h
      simp only [Option.some.injEq, Prod.mk.injEq] at hp
      rw [← hp.2]
      have := parseUnsigned_length _ _ _ hu
      simp only [List.length_cons]
      omega
    · rw [Option.map_eq_some'] at h
      obtain ⟨⟨p, r'⟩, hu, hp⟩ := h
      simp only [Option.some.injEq, Prod.mk.injEq] at hp
      rw [← hp.2]
      exact parseUnsigned_length _ _ _ hu

theorem expect_length (word cs rest : List Char) (h : expect word cs = some rest) :
    rest.length ≤ cs.length := by
  induction word generalizing cs with
  | nil =>
    rw [expect] at h
    simp only [Option.some.injEq] at h
    rw [h]
  | cons w ws ih =>
    cases cs with
    | nil => simp [expect] at h
    | cons c cs =>
      rw [expect] at h
      split at h
      · have := ih cs h
        simp only [List.length_cons]
        omega
      · simp at h

theorem parseStringChars_length (cs chars rest : List Char)
    (h : parseStringChars cs = some (chars, rest)) : rest.length < cs.length := by
  unfold parseStringChars at h
  rw [Option.map_eq_some'] at h
  obtain ⟨⟨u, r⟩, hu, hp⟩ := h
  simp only [Option.some.injEq, Prod.mk.injEq] at hp
  rw [← hp.2]
  exact parseStringUnits_length cs.length cs u r (Nat.le_refl _) hu

end JSON

namespace JSON

/-- Every successful parse consumes input. -/
theorem parse_consumes (fuel : Nat) :
    (∀ cs v r, parseValue fuel cs = some (v, r) → r.length < cs.length) ∧
    (∀ cs xs r, parseElements fuel cs = some (xs, r) → r.length < cs.length) ∧
    (∀ cs acc kvs r, parseMembers fuel cs acc = some (kvs, r) → r.length < cs.length) := by
  induction fuel with
  | zero =>
    refine ⟨?_, ?_, ?_⟩
    · intro cs v r h; rw [parseValue] at h; simp at h
    · intro cs xs r h; rw [parseElements] at h; simp at h
    · intro cs acc kvs r h; rw [parseMembers] at h; simp at h
  | succ f ih =>
    obtain ⟨ihv, ihe, ihm⟩ := ih
    refine ⟨?_, ?_, ?_⟩
    · intro cs v r h
      rw [parseValue] at h
      have hs := skipWs_length cs
      cases hsk : skipWs cs with
      | nil => rw [hsk] at h; simp at h
      | cons c rest =>
        rw [hsk] at h hs
        simp only [List.length_cons] at hs
        dsimp only at h
        have hs2 := skipWs_length rest
        split at h
        · cases hsk2 : skipWs rest with
          | nil => rw [hsk2] at h; simp at h
          | cons d rest' =>
            rw [hsk2] at h hs2
            simp only [List.length_cons] at hs2
            dsimp only at h
            split at h
            · simp only [Option.some.injEq, Prod.mk.injEq] at h
              rw [← h.2]; omega
            · rw [Option.map_eq_some'] at h
              obtain ⟨⟨kvs, r'⟩, hm, hp⟩ := h
              simp only [Option.some.injEq, Prod.mk.injEq] at hp
              have := ihm _ _ _ _ hm
              rw [← hp.2]
              simp only [List.length_cons] at this
              omega
        split at h
        · cases hsk2 : skipWs rest with
          | nil => rw [hsk2] at h; simp at h
          | cons d rest' =>
            rw [hsk2] at h hs2
            simp only [List.length_cons] at hs2
            dsimp only at h
            split at h
            · simp only [Option.some.injEq, Prod.mk.injEq] at h
              rw [← h.2]; omega
            · rw [Option.map_eq_some'] at h
              obtain ⟨⟨xs, r'⟩, hm, hp⟩ := h
              simp only [Option.some.injEq, Prod.mk.injEq] at hp
              have := ihe _ _ _ hm
              rw [← hp.2]
              simp only [List.length_cons] at this
              omega
        split at h
        · rw [Option.map_eq_some'] at h
          obtain ⟨⟨chars, r'⟩, hm, hp⟩ := h
          simp only [Option.some.injEq, Prod.mk.injEq] at hp
          have := parseStringChars_length _ _ _ hm
          rw [← hp.2]
          omega
        split at h
        · rw [Option.map_eq_some'] at h
          obtain ⟨r', hm, hp⟩ := h
          simp only [Option.some.injEq, Prod.mk.injEq] at hp
          have := expect_length _ _ _ hm
          rw [← hp.2]
          omega
        split at h
        · rw [Option.map_eq_some'] at h
          obtain ⟨r', hm, hp⟩ := h
          simp only [Option.some.injEq, Prod.mk.injEq] at hp
          have := expect_length _ _ _ hm
          rw [← hp.2]
          omega
        split at h
        · rw [Option.map_eq_some'] at h
          obtain ⟨r', hm, hp⟩ := h
          simp only [Option.some.injEq, Prod.mk.injEq] at hp
          have := expect_length _ _ _ hm
          rw [← hp.2]
          omega
        · have := parseNumber_length _ _ _ h
          simp only [List.length_cons] at this
          omega
    · intro cs xs r h
      rw [parseElements] at h
      cases hv : parseValue f cs with
      | none => rw [hv] at h; simp at h
      | some p =>
        obtain ⟨v, r1⟩ := p
        rw [hv] at h
        dsimp only at h
        have h1 := ihv _ _ _ hv
        have hs := skipWs_length r1
        cases hsk : skipWs r1 with
        | nil => rw [hsk] at h; simp at h
        | cons d r' =>
          rw [hsk] at h hs
          simp only [List.length_cons] at hs
          dsimp only at h
          split at h
          · rw [Option.map_eq_some'] at h
            obtain ⟨⟨ys, r2⟩, hm, hp⟩ := h
            simp only [Option.some.injEq, Prod.mk.injEq] at hp
            have := ihe _ _ _ hm
            rw [← hp.2]
            omega
          · split at h
            · simp only [Option.some.injEq, Prod.mk.injEq] at h
              rw [← h.2]; omega
            · simp at h
    · intro cs acc kvs r h
      rw [parseMembers] at h
      have hs := skipWs_length cs
      cases hsk : skipWs cs with
      | nil => rw [hsk] at h; simp at h
      | cons q r0 =>
        rw [hsk] at h hs
        simp only [List.length_cons] at hs
        dsimp only at h
        split at h
        · cases hk : parseStringChars r0 with
          | none => rw [hk] at h; simp at h
          | some p =>
            obtain ⟨k, r1⟩ := p
            rw [hk] at h
            dsimp only at h
            have h1 := parseStringChars_length _ _ _ hk
            have hs1 := skipWs_length r1
            cases hsk1 : skipWs r1 with
            | nil => rw [hsk1] at h; simp at h
            | cons col r2 =>
              rw [hsk1] at h hs1
              simp only [List.length_cons] at hs1
              dsimp only at h
              split at h
              · cases hv : parseValue f r2 with
                | none => rw [hv] at h; simp at h
                | some pv =>
                  obtain ⟨v, r3⟩ := pv
                  rw [hv] at h
                  dsimp only at h
                  have h3 := ihv _ _ _ hv
                  have hs3 := skipWs_length r3
                  cases hsk3 : skipWs r3 with
                  | nil => rw [hsk3] at h; simp at h
                  | cons d r4 =>
                    rw [hsk3] at h hs3
                    simp only [List.length_cons] at hs3
                    dsimp only at h
                    split at h
                    · have := ihm _ _ _ _ h
                      omega
                    · split at h
                      · simp only [Option.some.injEq, Prod.mk.injEq] at h
                        rw [← h.2]; omega
                      · simp at h
              · simp at h
        · simp at h

end JSON

namespace JSON

/-- A parse that succeeds with some fuel succeeds, with the same result, with any fuel
that is at least the number of characters it consumes. -/
theorem parse_fuel (fuel : Nat) :
    (∀ cs v r, parseValue fuel cs = some (v, r) →
      ∀ g, cs.length - r.length ≤ g → parseValue g cs = some (v, r)) ∧
    (∀ cs xs r, parseElements fuel cs = some (xs, r) →
      ∀ g, cs.length - r.length ≤ g → parseElements g cs = some (xs, r)) ∧
    (∀ cs acc kvs r, parseMembers fuel cs acc = some (kvs, r) →
      ∀ g, cs.length - r.length ≤ g → parseMembers g cs acc = some (kvs, r)) := by
  induction fuel with
  | zero =>
    refine ⟨?_, ?_, ?_⟩
    · intro cs v r h; rw [parseValue] at h; simp at h
    · intro cs xs r h; rw [parseElements] at h; simp at h
    · intro cs acc kvs r h; rw [parseMembers] at h; simp at h
  | succ f ih =>
    obtain ⟨ihv, ihe, ihm⟩ := ih
    refine ⟨?_, ?_, ?_⟩
    · intro cs v r h g hg
      have hcons := (parse_consumes (f + 1)).1 cs v r h
      obtain ⟨g', rfl⟩ : ∃ g', g = g' + 1 := ⟨g - 1, by omega⟩
      rw [parseValue] at h ⊢
      have hs := skipWs_length cs
      cases hsk : skipWs cs with
      | nil => rw [hsk] at h; simp at h
      | cons c rest =>
        rw [hsk] at h hs
        simp only [List.length_cons] at hs
        dsimp only at h ⊢
        have hs2 := skipWs_length rest
        by_cases h1 : c = '{'
        · rw [if_pos h1] at h ⊢
          cases hsk2 : skipWs rest with
          | nil => rw [hsk2] at h; simp at h
          | cons d rest' =>
            rw [hsk2] at h hs2
            simp only [List.length_cons] at hs2
            dsimp only at h ⊢
            by_cases h2 : d = '}'
            · rw [if_pos h2] at h ⊢
              exact h
            · rw [if_neg h2] at h ⊢
              rw [Option.map_eq_some'] at h
              obtain ⟨⟨kvs, r'⟩, hm, hp⟩ := h
              simp only [Option.some.injEq, Prod.mk.injEq] at hp
              rw [ihm _ _ _ _ hm g' (by rw [hp.2]; simp only [List.length_cons]; omega)]
              simp only [Option.map_some', hp.1, hp.2]
        rw [if_neg h1] at h ⊢
        by_cases h2 : c = '['
        · rw [if_pos h2] at h ⊢
          cases hsk2 : skipWs rest with
          | nil => rw [hsk2] at h; simp at h
          | cons d rest' =>
            rw [hsk2] at h hs2
            simp only [List.length_cons] at hs2
            dsimp only at h ⊢
            by_cases h3 : d = ']'
            · rw [if_pos h3] at h ⊢
              exact h
            · rw [if_neg h3] at h ⊢
              rw [Option.map_eq_some'] at h
              obtain ⟨⟨xs, r'⟩, hm, hp⟩ := h
              simp only [Option.some.injEq, Prod.mk.injEq] at hp
              rw [ihe _ _ _ hm g' (by rw [hp.2]; simp only [List.length_cons]; omega)]
              simp only [Option.map_some', hp.1, hp.2]
        · rw [if_neg h2] at h ⊢
          exact h
    · intro cs xs r h g hg
      have hcons := (parse_consumes (f + 1)).2.1 cs xs r h
      obtain ⟨g', rfl⟩ : ∃ g', g = g' + 1 := ⟨g - 1, by omega⟩
      rw [parseElements] at h ⊢
      cases hv : parseValue f cs with
      | none => rw [hv] at h; simp at h
      | some p =>
        obtain ⟨v, r1⟩ := p
        rw [hv] at h
        dsimp only at h
        have h1 := (parse_consumes f).1 _ _ _ hv
        have hs := skipWs_length r1
        cases hsk : skipWs r1 with
        | nil => rw [hsk] at h; simp at h
        | cons d r' =>
          rw [hsk] at h hs
          simp only [List.length_cons] at hs
          dsimp only at h
          by_cases hc : d = ','
          · rw [if_pos hc] at h
            rw [Option.map_eq_some'] at h
            obtain ⟨⟨ys, r2⟩, hm, hp⟩ := h
            simp only [Option.some.injEq, Prod.mk.injEq] at hp
            have h2 := (parse_consumes f).2.1 _ _ _ hm
            rw [← hp.2] at hg
            rw [ihv _ _ _ hv g' (by omega)]
            dsimp only
            rw [hsk]
            dsimp only
            rw [if_pos hc, ihe _ _ _ hm g' (by omega)]
            simp only [Option.map_some', hp.1, hp.2]
          · rw [if_neg hc] at h
            by_cases hb : d = ']'
            · rw [if_pos hb] at h
              simp only [Option.some.injEq, Prod.mk.injEq] at h
              rw [← h.2] at hg
              rw [ihv _ _ _ hv g' (by omega)]
              dsimp only
              rw [hsk]
              dsimp only
              rw [if_neg hc, if_pos hb, h.1, h.2]
            · rw [if_neg hb] at h
              simp at h
    · intro cs acc kvs r h g hg
      have hcons := (parse_consumes (f + 1)).2.2 cs acc kvs r h
      obtain ⟨g', rfl⟩ : ∃ g', g = g' + 1 := ⟨g - 1, by omega⟩
      rw [parseMembers] at h ⊢
      have hs := skipWs_length cs
      cases hsk : skipWs cs with
      | nil => rw [hsk] at h; simp at h
      | cons q r0 =>
        rw [hsk] at h hs
        simp only [List.length_cons] at hs
        dsimp only at h ⊢
        by_cases hq : q = '"'
        · rw [if_pos hq] at h ⊢
          cases hk : parseStringChars r0 with
          | none => rw [hk] at h; simp at h
          | some p =>
            obtain ⟨k, r1⟩ := p
            rw [hk] at h
            dsimp only at h ⊢
            have h1 := parseStringChars_length _ _ _ hk
            have hs1 := skipWs_length r1
            cases hsk1 : skipWs r1 with
            | nil => rw [hsk1] at h; simp at h
            | cons col r2 =>
              rw [hsk1] at h hs1
              simp only [List.length_cons] at hs1
              dsimp only at h ⊢
              by_cases hcol : col = ':'
              · rw [if_pos hcol] at h ⊢
                cases hv : parseValue f r2 with
                | none => rw [hv] at h; simp at h
                | some pv =>
                  obtain ⟨v, r3⟩ := pv
                  rw [hv] at h
                  dsimp only at h
                  have h3 := (parse_consumes f).1 _ _ _ hv
                  have hs3 := skipWs_length r3
                  cases hsk3 : skipWs r3 with
                  | nil => rw [hsk3] at h; simp at h
                  | cons d r4 =>
                    rw [hsk3] at h hs3
                    simp only [List.length_cons] at hs3
                    dsimp only at h
                    by_cases hc : d = ','
                    · rw [if_pos hc] at h
                      have h4 := (parse_consumes f).2.2 _ _ _ _ h
                      rw [ihv _ _ _ hv g' (by omega)]
                      dsimp only
                      rw [hsk3]
                      dsimp only
                      rw [if_pos hc]
                      exact ihm _ _ _ _ h g' (by omega)
                    · rw [if_neg hc] at h
                      by_cases hb : d = '}'
                      · rw [if_pos hb] at h
                        simp only [Option.some.injEq, Prod.mk.injEq] at h
                        rw [← h.2] at hg
                        rw [ihv _ _ _ hv g' (by omega)]
                        dsimp only
                        rw [hsk3]
                        dsimp only
                        rw [if_neg hc, if_pos hb, h.1, h.2]
                      · rw [if_neg hb] at h
                        simp at h
              · rw [if_neg hcol] at h
                simp at h
        · rw [if_neg hq] at h
          simp at h

/-- The fuel `JSON.parse` gives is enough: the text is rejected only when no amount of
fuel reads it as one value followed by whitespace. -/
theorem parse_eq_none_iff (text : String) :
    parse text = none ↔
      ∀ fuel v rest, parseValue fuel text.data = some (v, rest) →
        (skipWs rest).isEmpty = false := by
  constructor
  · intro h fuel v rest hp
    have hfull := (parse_fuel fuel).1 _ _ _ hp (text.length + 1)
      (by simp only [String.length]; omega)
    unfold parse at h
    rw [hfull] at h
    dsimp only at h
    split at h
    · simp at h
    · rename_i hne
      simpa using hne
  · intro h
    unfold parse
    cases hp : parseValue (text.length + 1) text.data with
    | none => rfl
    | some p =>
      obtain ⟨v, rest⟩ := p
      dsimp only
      rw [h _ v rest hp]
      rfl

end JSON

/-! ## The comparison of the worked examples -/

namespace JSON

mutual
theorem structEq_iff : ∀ (a b : JSON), structEq a b = true ↔ a = b
  | .null, b => by cases b <;> simp [structEq]
  | .bool x, b => by cases b <;> simp [structEq]
  | .num m s, b => by cases b <;> simp [structEq]
  | .str s, b => by cases b <;> simp [structEq]
  | .arr xs, b => by
    cases b with
    | arr ys => simp only [structEq, structEqElements_iff xs ys, arr.injEq]
    | _ => simp [structEq]
  | .obj xs, b => by
    cases b with
    | obj ys => simp only [structEq, structEqMembers_iff xs ys, obj.injEq]
    | _ => simp [structEq]
theorem structEqElements_iff : ∀ (xs ys : List JSON), structEqElements xs ys = true ↔ xs = ys
  | [], ys => by cases ys <;> simp [structEqElements]
  | x :: xs, ys => by
    cases ys with
    | nil => simp [structEqElements]
    | cons y ys =>
      simp only [structEqElements, Bool.and_eq_true, structEq_iff x y,
        structEqElements_iff xs ys, List.cons.injEq]
theorem structEqMembers_iff : ∀ (xs ys : List (String × JSON)),
    structEqMembers xs ys = true ↔ xs = ys
  | [], ys => by cases ys <;> simp [structEqMembers]
  | (k, x) :: xs, ys => by
    cases ys with
    | nil => simp [structEqMembers]
    | cons kv ys =>
      obtain ⟨k', y⟩ := kv
      simp only [structEqMembers, Bool.and_eq_true, beq_iff_eq, structEq_iff x y,
        structEqMembers_iff xs ys, List.cons.injEq, Prod.mk.injEq, and_assoc]
end

end JSON
